import Mathlib

/-!
Anscombe quartet regression: the fitter and the metrics calculator.

Shallow embedding of `linearRegression` and `regressionMetrics` of `main.go`.

Numbers.  A Go `float64` is an IEEE-754 binary64 value, modelled by `F64`:
a finite value given by the rational it denotes (`fin 0` is `+0`), the
negative zero, the two infinities, or `NaN`.  Every arithmetic operation
computes the exact rational result and rounds it to the nearest binary64
value, ties to even (`roundNE`), with gradual underflow, overflow to an
infinity, signed zeros and the IEEE rules for non-finite operands.  Every
operation of the source is rounded on its own, as the `amd64` compiler does
(no fused multiply-add).

The two functions are written once, over any type that carries the float
operations (`FloatOps`), and are run on `F64`.  Their second instance,
`Tracked`, runs the same `F64` operations and carries along a ghost bit that
records that no operation so far has rounded; it serves to state what the
functions compute when no rounding occurs.  Dropping the bit from a `Tracked`
run gives the `F64` run (`linearRegression_erase`, `regressionMetrics_erase`).
-/

set_option linter.unusedSectionVars false
set_option linter.unusedVariables false

namespace Anscombe

/-! ## IEEE-754 binary64 -/

/-- IEEE-754 binary64 value: `fin v` is the finite value denoting the
rational `v` (`fin 0` is `+0`), `nzero` is `-0`. -/
inductive F64 where
  | fin (v : ℚ)
  | nzero
  | pinf
  | ninf
  | nan
  deriving DecidableEq

namespace F64

/-- Power of two `2 ^ e` for an integer exponent. -/
def pow2 (e : Int) : ℚ :=
  if 0 ≤ e then ((2 ^ e.toNat : Nat) : ℚ) else 1 / ((2 ^ (-e).toNat : Nat) : ℚ)

/-- Number of halvings that bring `n` below 2, with `k` steps of fuel. -/
def log2Aux : Nat → Nat → Nat → Nat
  | 0, _, acc => acc
  | k + 1, n, acc => if n < 2 then acc else log2Aux k (n / 2) (acc + 1)

/-- Floor of the binary logarithm of a positive natural number. -/
def log2 (n : Nat) : Nat := log2Aux n n 0

/-- Floor of the binary logarithm of a positive rational. -/
def ilog2 (q : ℚ) : Int :=
  let e0 : Int := (log2 q.num.natAbs : Int) - (log2 q.den : Int)
  if pow2 e0 ≤ q then e0 else e0 - 1

/-- Nearest natural number to the non-negative rational `t`, ties to even. -/
def nearestEven (t : ℚ) : Nat :=
  let m : Nat := t.num.toNat / t.den
  let r : ℚ := t - (m : ℚ)
  if r < 1 / 2 then m
  else if 1 / 2 < r then m + 1
  else if m % 2 = 0 then m else m + 1

/-- Round the positive rational `q` to the nearest binary64 value, ties to
even: 53 significant bits, least exponent `-1074` (subnormals), `none` when
the rounded value reaches `2 ^ 1024` (overflow). -/
def roundPos (q : ℚ) : Option ℚ :=
  let e : Int := max (ilog2 q - 52) (-1074)
  let v : ℚ := (nearestEven (q / pow2 e) : ℚ) * pow2 e
  if pow2 1024 ≤ v then none else some v

/-- Round a rational to binary64 (round to nearest, ties to even): an exact
zero is `+0`, a negative value that underflows to zero is `-0`. -/
def roundNE (q : ℚ) : F64 :=
  if q = 0 then fin 0
  else if 0 < q then
    match roundPos q with
    | some v => fin v
    | none => pinf
  else
    match roundPos (-q) with
    | some v => if v = 0 then nzero else fin (-v)
    | none => ninf

/-- Newton iteration for the integer square root, from a guess above it. -/
def isqrtAux : Nat → Nat → Nat → Nat
  | 0, _, g => g
  | k + 1, n, g =>
    let next := (g + n / g) / 2
    if next < g then isqrtAux k n next else g

/-- Integer square root (floor). -/
def isqrt (n : Nat) : Nat :=
  if n ≤ 1 then n else isqrtAux n n (2 ^ (log2 n / 2 + 1))

/-- Correctly rounded square root of a positive rational: the 53-bit value
nearest to the real square root. -/
def sqrtPos (v : ℚ) : ℚ :=
  let e : Int := ilog2 v / 2 - 52
  let t : ℚ := v / pow2 (2 * e)
  let m : Nat := isqrt (t.num.toNat / t.den)
  let h : ℚ := ((m : ℚ) + 1 / 2) * ((m : ℚ) + 1 / 2)
  let m2 : Nat := if t < h then m else if h < t then m + 1 else if m % 2 = 0 then m else m + 1
  (m2 : ℚ) * pow2 e

/-- Sign bit. -/
def isNeg : F64 → Bool
  | fin v => decide (v < 0)
  | nzero => true
  | pinf => false
  | ninf => true
  | nan => false

/-- Zero of the given sign. -/
def zeroS (neg : Bool) : F64 := if neg then nzero else fin 0

/-- Infinity of the given sign. -/
def infS (neg : Bool) : F64 := if neg then ninf else pinf

/-- Rational denoted by a finite value, `none` for an infinity or `NaN`. -/
def toRat? : F64 → Option ℚ
  | fin v => some v
  | nzero => some 0
  | pinf => none
  | ninf => none
  | nan => none

/-- Whether the value is finite. -/
def isFinite : F64 → Bool
  | fin _ => true
  | nzero => true
  | pinf => false
  | ninf => false
  | nan => false

/-- Rational denoted by a finite value (`0` for a non-finite one). -/
def val : F64 → ℚ
  | fin v => v
  | nzero => 0
  | pinf => 0
  | ninf => 0
  | nan => 0

/-- The value of a finite float in an ordered field `K` (the reals, say). -/
def real (K : Type) [LinearOrderedField K] (f : F64) : K := ((f.val : ℚ) : K)

/-- Float negation. -/
def neg : F64 → F64
  | fin v => if v = 0 then nzero else fin (-v)
  | nzero => fin 0
  | pinf => ninf
  | ninf => pinf
  | nan => nan

/-- Float addition: `Inf + (-Inf) = NaN`, `(-0) + (-0) = -0`, an exact zero
sum is `+0`, otherwise the exact sum rounded. -/
def add : F64 → F64 → F64
  | nan, _ => nan
  | _, nan => nan
  | pinf, ninf => nan
  | ninf, pinf => nan
  | pinf, _ => pinf
  | _, pinf => pinf
  | ninf, _ => ninf
  | _, ninf => ninf
  | nzero, nzero => nzero
  | nzero, fin b => fin b
  | fin a, nzero => fin a
  | fin a, fin b => roundNE (a + b)

/-- Float subtraction, `a - b = a + (-b)`. -/
def sub (a b : F64) : F64 := add a (neg b)

/-- Float multiplication: the sign is the exclusive or of the signs,
`Inf * 0 = NaN`, a product with a zero factor is a signed zero, otherwise
the exact product rounded. -/
def mul (a b : F64) : F64 :=
  match a.toRat?, b.toRat? with
  | some va, some vb =>
    if va = 0 ∨ vb = 0 then zeroS (xor a.isNeg b.isNeg) else roundNE (va * vb)
  | some va, none =>
    if b = nan ∨ va = 0 then nan else infS (xor a.isNeg b.isNeg)
  | none, some vb =>
    if a = nan ∨ vb = 0 then nan else infS (xor a.isNeg b.isNeg)
  | none, none =>
    if a = nan ∨ b = nan then nan else infS (xor a.isNeg b.isNeg)

/-- Float division: the sign is the exclusive or of the signs, `0 / 0` and
`Inf / Inf` are `NaN`, a non-zero value over a zero is an infinity, a finite
value over an infinity is a zero, otherwise the exact quotient rounded. -/
def div (a b : F64) : F64 :=
  match a.toRat?, b.toRat? with
  | some va, some vb =>
    if vb = 0 then (if va = 0 then nan else infS (xor a.isNeg b.isNeg))
    else if va = 0 then zeroS (xor a.isNeg b.isNeg)
    else roundNE (va / vb)
  | some _, none =>
    if b = nan then nan else zeroS (xor a.isNeg b.isNeg)
  | none, some _ =>
    if a = nan then nan else infS (xor a.isNeg b.isNeg)
  | none, none => nan

/-- Go library function `math.Sqrt`, correctly rounded: `Sqrt(±0) = ±0`,
`Sqrt(+Inf) = +Inf`, `Sqrt(x < 0) = NaN`, `Sqrt(NaN) = NaN`. -/
def Sqrt : F64 → F64
  | fin v => if v < 0 then nan else if v = 0 then fin 0 else fin (sqrtPos v)
  | nzero => nzero
  | pinf => pinf
  | ninf => nan
  | nan => nan

/-- Float comparison `a <= b`: false as soon as one side is `NaN`, and `-0`
equals `+0`. -/
def le : F64 → F64 → Bool
  | nan, _ => false
  | _, nan => false
  | ninf, _ => true
  | _, pinf => true
  | pinf, _ => false
  | _, ninf => false
  | a, b => decide (a.val ≤ b.val)

instance : Add F64 := ⟨add⟩
instance : Sub F64 := ⟨sub⟩
instance : Mul F64 := ⟨mul⟩
instance : Div F64 := ⟨div⟩

end F64

open F64

/-- Operations of `float64` that the two functions use: the four arithmetic
operations, the conversion of a constant or of a length (`float64(n)`),
`math.NaN()` and `math.Sqrt`. -/
class FloatOps (α : Type) extends Add α, Sub α, Mul α, Div α where
  ofRat : ℚ → α
  NaN : α
  sqrt : α → α

instance : FloatOps F64 where
  ofRat := roundNE
  NaN := nan
  sqrt := F64.Sqrt

/-! ## The ghost bit: no rounding so far -/

/-- Float together with the ghost bit `ok`: every operation that produced it,
from the inputs on, had finite operands and returned the exact real result
(for the last operation also: a non-zero value divided by a zero, whose
result is an exact infinity). -/
structure Tracked where
  f : F64
  ok : Bool
  deriving DecidableEq

/-- Input sample: no operation has produced it. -/
def track (f : F64) : Tracked := ⟨f, true⟩

/-- The float `r` is finite and denotes `v`. -/
def exactly (r : F64) (v : ℚ) : Bool := r.isFinite && decide (r.val = v)

/-- Both operands are exact so far and finite. -/
def okFin (a b : Tracked) : Bool := a.ok && b.ok && a.f.isFinite && b.f.isFinite

namespace Tracked

/-- Tracked addition. -/
def add (a b : Tracked) : Tracked :=
  ⟨a.f + b.f, okFin a b && exactly (a.f + b.f) (a.f.val + b.f.val)⟩

/-- Tracked subtraction. -/
def sub (a b : Tracked) : Tracked :=
  ⟨a.f - b.f, okFin a b && exactly (a.f - b.f) (a.f.val - b.f.val)⟩

/-- Tracked multiplication. -/
def mul (a b : Tracked) : Tracked :=
  ⟨a.f * b.f, okFin a b && exactly (a.f * b.f) (a.f.val * b.f.val)⟩

/-- Tracked division: exact when the quotient is, or when a non-zero value
is divided by a zero. -/
def div (a b : Tracked) : Tracked :=
  ⟨a.f / b.f, okFin a b &&
    (if b.f.val = 0 then decide (a.f.val ≠ 0) else exactly (a.f / b.f) (a.f.val / b.f.val))⟩

/-- Tracked square root: exact when the root squares back to the operand. -/
def sqrt (a : Tracked) : Tracked :=
  ⟨F64.Sqrt a.f, a.ok && a.f.isFinite && (F64.Sqrt a.f).isFinite &&
    decide ((F64.Sqrt a.f).val * (F64.Sqrt a.f).val = a.f.val)⟩

end Tracked

instance : FloatOps Tracked where
  add := Tracked.add
  sub := Tracked.sub
  mul := Tracked.mul
  div := Tracked.div
  ofRat q := ⟨roundNE q, exactly (roundNE q) q⟩
  NaN := ⟨nan, false⟩
  sqrt := Tracked.sqrt

/-! ## The two functions of `main.go` -/

section Code

open FloatOps

variable {α : Type} [FloatOps α]

/-- Modelled from the spec: the sum `Σ` of a sample sequence, which the source
takes from `stats.Sum` of the imported library `montanaflynn/stats` (not part
of the repository).  The library returns `NaN` (with an error the callers
drop) on an empty input, otherwise the values added from `0` in order. -/
def stats.Sum (input : List α) : α :=
  if input.length = 0 then NaN
  else input.foldl (fun sum n => sum + n) (ofRat 0)

/-- Modelled from the spec: the mean of a sample sequence, which the source
takes from `stats.Mean` of the imported library `montanaflynn/stats` (not part
of the repository).  The library returns `NaN` on an empty input, otherwise
`Sum(input) / float64(len(input))`. -/
def stats.Mean (input : List α) : α :=
  if input.length = 0 then NaN
  else stats.Sum input / ofRat (input.length : ℚ)

/-- One pass of the loop of `linearRegression` over the index `i`, on the
accumulator `(sumXY, sumX2)`. -/
def lrStep (acc : α × α) (p : α × α) : α × α :=
  (acc.1 + p.1 * p.2, acc.2 + p.1 * p.1)

/-- Function `linearRegression(x, y)`: the error when the lengths differ, otherwise
`(slope, intercept)`.  The loop runs over the indices `i < len(x)`, that is
over the pairs `(x[i], y[i])`. -/
def linearRegression (x y : List α) : Except String (α × α) :=
  if x.length ≠ y.length then
    Except.error "x and y must have the same length"
  else
    let n : α := ofRat (x.length : ℚ)
    let sumX := stats.Sum x
    let sumY := stats.Sum y
    let sums := (List.zip x y).foldl lrStep (ofRat 0, ofRat 0)
    let sumXY := sums.1
    let sumX2 := sums.2
    let numerator := n * sumXY - sumX * sumY
    let denominator := n * sumX2 - sumX * sumX
    let slope := numerator / denominator
    let meanX := stats.Mean x
    let meanY := stats.Mean y
    let intercept := meanY - slope * meanX
    Except.ok (slope, intercept)

/-- One pass of the loop of `regressionMetrics`, on the accumulator
`(rss, tss)`. -/
def rmStep (slope intercept yMean : α) (acc : α × α) (p : α × α) : α × α :=
  let yHat := slope * p.1 + intercept
  let residual := p.2 - yHat
  (acc.1 + residual * residual, acc.2 + (p.2 - yMean) * (p.2 - yMean))

/-- Function `regressionMetrics(x, y, slope, intercept) = (r2, rse, f)`.  The loop
reads `y[i]` for every `i < len(x)`: it stops the program with an index out
of range (`none`) when `y` is shorter than `x`. -/
def regressionMetrics (x y : List α) (slope intercept : α) : Option (α × α × α) :=
  if y.length < x.length then none
  else
    let n : α := ofRat (x.length : ℚ)
    let yMean := stats.Mean y
    let sums := (List.zip x y).foldl (rmStep slope intercept yMean) (ofRat 0, ofRat 0)
    let rss := sums.1
    let tss := sums.2
    let r2 := ofRat 1 - rss / tss
    let rse := sqrt (rss / (n - ofRat 2))
    let f := ((tss - rss) / ofRat 1) / (rss / (n - ofRat 2))
    some (r2, rse, f)

/-- The accumulators `(rss, tss)` at the end of the loop of
`regressionMetrics`. -/
def rmSums (x y : List α) (slope intercept : α) : α × α :=
  (List.zip x y).foldl (rmStep slope intercept (stats.Mean y)) (ofRat 0, ofRat 0)

end Code

/-- Float64 values of a list of decimal constants, as the Go compiler
converts them. -/
def floats (l : List ℚ) : List F64 := l.map roundNE

/-! ## The four datasets of `main` -/

def x1 : List F64 := floats [10, 8, 13, 9, 11, 14, 6, 4, 12, 7, 5]
def x2 : List F64 := floats [10, 8, 13, 9, 11, 14, 6, 4, 12, 7, 5]
def x3 : List F64 := floats [10, 8, 13, 9, 11, 14, 6, 4, 12, 7, 5]
def x4 : List F64 := floats [8, 8, 8, 8, 8, 8, 8, 19, 8, 8, 8]
def y1 : List F64 :=
  floats [8.04, 6.95, 7.58, 8.81, 8.33, 9.96, 7.24, 4.26, 10.84, 4.82, 5.68]
def y2 : List F64 :=
  floats [9.14, 8.14, 8.74, 8.77, 9.26, 8.1, 6.13, 3.1, 9.13, 7.26, 4.74]
def y3 : List F64 :=
  floats [7.46, 6.77, 12.74, 7.11, 7.81, 8.84, 6.08, 5.39, 8.15, 6.42, 5.73]
def y4 : List F64 :=
  floats [6.58, 5.76, 7.71, 8.84, 8.47, 7.04, 5.25, 12.5, 5.56, 7.91, 6.89]

deriving instance DecidableEq for Except

/-! ## Runs without rounding -/

/-- No operation of `linearRegression(x, y)` rounds: the ghost bits of the
returned slope and intercept are set. -/
def fitExact (x y : List F64) : Bool :=
  match linearRegression (x.map track) (y.map track) with
  | Except.ok (s, i) => s.ok && i.ok
  | Except.error _ => false

/-- No operation behind the `R²` of `regressionMetrics(x, y, slope, intercept)`
rounds. -/
def r2Exact (x y : List F64) (slope intercept : F64) : Bool :=
  match regressionMetrics (x.map track) (y.map track) (track slope) (track intercept) with
  | some (r2, _, _) => r2.ok
  | none => false

/-- No operation behind the `RSE` of `regressionMetrics(x, y, slope, intercept)`
rounds, the square root included. -/
def rseExact (x y : List F64) (slope intercept : F64) : Bool :=
  match regressionMetrics (x.map track) (y.map track) (track slope) (track intercept) with
  | some (_, rse, _) => rse.ok
  | none => false

/-- No operation behind the `F` of `regressionMetrics(x, y, slope, intercept)`
rounds; the last division may be that of a non-zero value by zero. -/
def fExact (x y : List F64) (slope intercept : F64) : Bool :=
  match regressionMetrics (x.map track) (y.map track) (track slope) (track intercept) with
  | some (_, _, f) => f.ok
  | none => false

/-! ## Sums of the samples, as the specification writes them -/

section Sums

variable {K : Type} [LinearOrderedField K]

/-- Sum of the products `x_i * y_i` over the common indices. -/
def sumXY (x y : List K) : K := ((List.zip x y).map (fun p => p.1 * p.2)).sum

/-- Sum of the squares `x_i * x_i`. -/
def sumSq (x : List K) : K := (x.map (fun a => a * a)).sum

/-- Arithmetic mean `Σ y_i / n`. -/
def meanOf (y : List K) : K := y.sum / (y.length : K)

/-- Sum of the squared residuals of the line `a * x + b`:
`Σ (y_i - (a * x_i + b))²`. -/
def rssOf (x y : List K) (a b : K) : K :=
  ((List.zip x y).map (fun p => (p.2 - (a * p.1 + b)) ^ 2)).sum

/-- Total sum of squares `Σ (y_i - mean(y))²`. -/
def tssOf (y : List K) : K := (y.map (fun v => (v - meanOf y) ^ 2)).sum

/-- Numerator `n·Σxy − Σx·Σy` of the slope. -/
def slopeNum (x y : List K) : K := (x.length : K) * sumXY x y - x.sum * y.sum

/-- Denominator `n·Σx² − (Σx)²` of the slope. -/
def slopeDen (x : List K) : K := (x.length : K) * sumSq x - x.sum * x.sum

/-- Closed-form least-squares slope. -/
def olsSlope (x y : List K) : K := slopeNum x y / slopeDen x

/-- Closed-form least-squares intercept `mean(y) − slope·mean(x)`. -/
def olsIntercept (x y : List K) : K := meanOf y - olsSlope x y * meanOf x

/-- The sequence holds at least two distinct values. -/
def TwoDistinct (x : List K) : Prop := ∃ u ∈ x, ∃ v ∈ x, u ≠ v

instance (x : List K) : Decidable (TwoDistinct x) := by
  unfold TwoDistinct
  infer_instance

end Sums

/-- The real values of a list of finite floats. -/
def reals (K : Type) [LinearOrderedField K] (x : List F64) : List K := x.map (F64.real K)

/-- The real values of a list of tracked floats. -/
def realsT (K : Type) [LinearOrderedField K] (x : List Tracked) : List K :=
  x.map (fun a => a.f.real K)

/-- The float is `NaN`, `+Inf`, `+0` or a positive finite value. -/
def F64.NonNeg (a : F64) : Prop := a = nan ∨ a = pinf ∨ ∃ v : ℚ, 0 ≤ v ∧ a = fin v

/-- Exact so far, and finite. -/
def Good (a : Tracked) : Prop := a.ok = true ∧ a.f.isFinite = true

section GhostRun

open FloatOps

/-- Ghost run of `regressionMetrics`: the accumulator `rss`. -/
def rssT (x y : List F64) (s i : F64) : Tracked :=
  (rmSums (x.map track) (y.map track) (track s) (track i)).1

/-- Ghost run of `regressionMetrics`: the accumulator `tss`. -/
def tssT (x y : List F64) (s i : F64) : Tracked :=
  (rmSums (x.map track) (y.map track) (track s) (track i)).2

/-- Ghost run of `regressionMetrics`: `n = float64(len(x))`. -/
def nT (x : List F64) : Tracked := ofRat (x.length : ℚ)

/-- Ghost run of `regressionMetrics`: the divisor `rss / (n - 2)`. -/
def quotT (x y : List F64) (s i : F64) : Tracked := rssT x y s i / (nT x - ofRat 2)

/-- Ghost run of `regressionMetrics`: `r2`. -/
def r2T (x y : List F64) (s i : F64) : Tracked := ofRat 1 - rssT x y s i / tssT x y s i

/-- Ghost run of `regressionMetrics`: `rse`. -/
def rseT (x y : List F64) (s i : F64) : Tracked := sqrt (quotT x y s i)

/-- Ghost run of `regressionMetrics`: the dividend `(tss - rss) / 1` of `f`. -/
def numT (x y : List F64) (s i : F64) : Tracked := (tssT x y s i - rssT x y s i) / ofRat 1

/-- Ghost run of `regressionMetrics`: `f`. -/
def fT (x y : List F64) (s i : F64) : Tracked := numT x y s i / quotT x y s i

end GhostRun

/-- No operation behind the `F` of `regressionMetrics(x, y, slope, intercept)`
rounds, and `F` is finite. -/
def fExactFinite (x y : List F64) (slope intercept : F64) : Bool :=
  match regressionMetrics (x.map track) (y.map track) (track slope) (track intercept) with
  | some (_, _, f) => f.ok && f.f.isFinite
  | none => false

/-- The samples lie on the line `y = m·x + b`. -/
def OnLine (K : Type) [LinearOrderedField K] (m b : K) (x y : List F64) : Prop :=
  ∀ p ∈ List.zip x y, p.2.real K = m * p.1.real K + b

/-- The samples `y'` are the samples `y` shifted by `c`. -/
def Shifted (K : Type) [LinearOrderedField K] (c : K) (y y' : List F64) : Prop :=
  y'.length = y.length ∧ ∀ p ∈ List.zip y y', p.2.real K = p.1.real K + c

/-! ## The claims as the specification states them, for every `float64` input -/

/-- C1 as stated: the returned pair is the least-squares fit. -/
def LeastSquaresAsStated (x y : List F64) : Prop :=
  x.length = y.length → slopeDen (reals ℝ x) ≠ 0 →
    ∃ s i : F64, linearRegression x y = Except.ok (s, i) ∧
      s.isFinite = true ∧ i.isFinite = true ∧
      ∀ a b : ℝ, rssOf (reals ℝ x) (reals ℝ y) (s.real ℝ) (i.real ℝ)
        ≤ rssOf (reals ℝ x) (reals ℝ y) a b

/-- C2 as stated: on samples of the line `y = m·x + b` the fit is `(m, b)`. -/
def RecoversLineAsStated (m b : ℝ) (x y : List F64) : Prop :=
  x.length = y.length → TwoDistinct (reals ℝ x) → OnLine ℝ m b x y →
    ∃ s i : F64, linearRegression x y = Except.ok (s, i) ∧
      s.isFinite = true ∧ i.isFinite = true ∧ s.real ℝ = m ∧ i.real ℝ = b

/-- C4 as stated: on samples of a line, `R² = 1` and `RSE = 0` for the fit. -/
def PerfectFitAsStated (m b : ℝ) (x y : List F64) : Prop :=
  x.length = y.length → 2 < x.length → m ≠ 0 → TwoDistinct (reals ℝ x) → OnLine ℝ m b x y →
    ∀ s i : F64, linearRegression x y = Except.ok (s, i) →
      ∃ r2 rse f : F64, regressionMetrics x y s i = some (r2, rse, f) ∧
        r2 = fin 1 ∧ rse.isFinite = true ∧ rse.val = 0

/-- C5 as stated: on samples of a line, `F ≥ 1000` for the fit. -/
def LargeFAsStated (m b : ℝ) (x y : List F64) : Prop :=
  x.length = y.length → 2 < x.length → m ≠ 0 → TwoDistinct (reals ℝ x) → OnLine ℝ m b x y →
    ∀ s i : F64, linearRegression x y = Except.ok (s, i) →
      ∃ r2 rse f : F64, regressionMetrics x y s i = some (r2, rse, f) ∧
        F64.le (fin 1000) f = true

/-- C6 as stated: `R² ≤ 1`, and `R² = 1` only when every residual is zero. -/
def R2AsStated (x y : List F64) (s i : F64) : Prop :=
  x.length = y.length → TwoDistinct (reals ℝ y) →
    ∃ r2 rse f : F64, regressionMetrics x y s i = some (r2, rse, f) ∧
      F64.le r2 (fin 1) = true ∧
      (r2 = fin 1 →
        ∀ p ∈ List.zip x y, p.2.real ℝ - (s.real ℝ * p.1.real ℝ + i.real ℝ) = 0)

/-- C7 as stated: a shift of `y` by `c` shifts the intercept by `c` and leaves
the slope, `R²` and `RSE` unchanged. -/
def ShiftAsStated (c : ℝ) (x y y' : List F64) : Prop :=
  x ≠ [] → x.length = y.length → Shifted ℝ c y y' →
    ∀ s i : F64, linearRegression x y = Except.ok (s, i) →
      ∃ s' i' : F64, linearRegression x y' = Except.ok (s', i') ∧
        s'.real ℝ = s.real ℝ ∧ i'.real ℝ = i.real ℝ + c ∧
        ∃ r2 rse f f' : F64, regressionMetrics x y s i = some (r2, rse, f) ∧
          regressionMetrics x y' s' i' = some (r2, rse, f')

/-- C9 as stated: `F = (TSS − RSS) / (RSE² · (n − 2))`. -/
def FStatAsStated (x y : List F64) (s i : F64) : Prop :=
  x.length = y.length → 2 < x.length →
    ∃ r2 rse f : F64, regressionMetrics x y s i = some (r2, rse, f) ∧
      f.real ℝ = (tssOf (reals ℝ y) - rssOf (reals ℝ x) (reals ℝ y) (s.real ℝ) (i.real ℝ))
        / (rse.real ℝ * rse.real ℝ * ((x.length : ℝ) - 2))

section Algebra

variable {K : Type} [LinearOrderedField K]

theorem natCast_length_ne_zero (x : List K) (hx : x ≠ []) : (x.length : K) ≠ 0 := by
  have h : x.length ≠ 0 := fun h => hx (List.length_eq_zero.mp h)
  exact_mod_cast h

theorem zip_sq_fst (x y : List K) (h : x.length = y.length) :
    ((List.zip x y).map (fun p => p.1 * p.1)).sum = sumSq x := by
  have e : (List.zip x y).map (fun p => p.1 * p.1)
      = ((List.zip x y).map Prod.fst).map (fun a => a * a) := by
    simp [List.map_map, Function.comp_def]
  rw [e, List.map_fst_zip _ _ h.le, sumSq]

theorem zip_sq_snd (x y : List K) (h : x.length = y.length) (m : K) :
    ((List.zip x y).map (fun p => (p.2 - m) ^ 2)).sum = (y.map (fun v => (v - m) ^ 2)).sum := by
  have e : (List.zip x y).map (fun p => (p.2 - m) ^ 2)
      = ((List.zip x y).map Prod.snd).map (fun v => (v - m) ^ 2) := by
    simp [List.map_map, Function.comp_def]
  rw [e, List.map_snd_zip _ _ h.ge]

theorem rssOf_expand (x y : List K) (hlen : x.length = y.length) (a b : K) :
    rssOf x y a b = sumSq y - 2 * a * sumXY x y - 2 * b * y.sum + a ^ 2 * sumSq x
      + 2 * a * b * x.sum + (x.length : K) * b ^ 2 := by
  induction x generalizing y with
  | nil =>
    cases y with
    | nil => simp [rssOf, sumSq, sumXY]
    | cons v r => simp at hlen
  | cons u t ih =>
    cases y with
    | nil => simp at hlen
    | cons v r =>
      have h := ih r (by simpa using hlen)
      simp only [rssOf, sumSq, sumXY, List.zip_cons_cons, List.map_cons, List.sum_cons,
        List.length_cons, Nat.cast_add, Nat.cast_one] at h ⊢
      rw [h]
      ring

theorem lineSq_expand (x : List K) (u v : K) :
    (x.map (fun t => (u * t + v) ^ 2)).sum
      = u ^ 2 * sumSq x + 2 * u * v * x.sum + (x.length : K) * v ^ 2 := by
  induction x with
  | nil => simp [sumSq]
  | cons w t ih =>
    simp only [sumSq, List.map_cons, List.sum_cons, List.length_cons, Nat.cast_add,
      Nat.cast_one] at ih ⊢
    rw [ih]
    ring

theorem devSq_expand (y : List K) (m : K) :
    (y.map (fun v => (v - m) ^ 2)).sum
      = sumSq y - 2 * m * y.sum + (y.length : K) * m ^ 2 := by
  induction y with
  | nil => simp [sumSq]
  | cons w t ih =>
    simp only [sumSq, List.map_cons, List.sum_cons, List.length_cons, Nat.cast_add,
      Nat.cast_one] at ih ⊢
    rw [ih]
    ring

theorem sum_sq_nonneg {α : Type} (l : List α) (g : α → K) :
    0 ≤ (l.map (fun t => g t ^ 2)).sum := by
  apply List.sum_nonneg
  intro e he
  obtain ⟨t, _, rfl⟩ := List.mem_map.mp he
  exact sq_nonneg _

theorem sum_sq_eq_zero {α : Type} (l : List α) (g : α → K)
    (h : (l.map (fun t => g t ^ 2)).sum = 0) : ∀ t ∈ l, g t = 0 := by
  induction l with
  | nil => simp
  | cons w t ih =>
    simp only [List.map_cons, List.sum_cons] at h
    have h1 : 0 ≤ g w ^ 2 := sq_nonneg _
    have h2 := sum_sq_nonneg t g
    have h3 : g w ^ 2 = 0 := by linarith
    have h4 : (t.map (fun t => g t ^ 2)).sum = 0 := by linarith
    intro e he
    rcases List.mem_cons.mp he with rfl | he
    · exact pow_eq_zero_iff (two_ne_zero) |>.mp h3
    · exact ih h4 e he

theorem tssOf_eq (y : List K) (hy : y ≠ []) :
    (y.length : K) * tssOf y = (y.length : K) * sumSq y - y.sum * y.sum := by
  have hn := natCast_length_ne_zero y hy
  rw [tssOf, devSq_expand, meanOf]
  field_simp
  ring

theorem tssOf_nonneg (y : List K) : 0 ≤ tssOf y := sum_sq_nonneg y _

theorem TwoDistinct.ne_nil {x : List K} (h : TwoDistinct x) : x ≠ [] := by
  obtain ⟨u, hu, _⟩ := h
  exact List.ne_nil_of_mem hu

theorem tssOf_pos (y : List K) (h : TwoDistinct y) : 0 < tssOf y := by
  rcases (tssOf_nonneg y).lt_or_eq with hpos | hzero
  · exact hpos
  · exfalso
    have hall := sum_sq_eq_zero y (fun v => v - meanOf y) hzero.symm
    obtain ⟨u, hu, v, hv, huv⟩ := h
    have e1 := hall u hu
    have e2 := hall v hv
    simp only at e1 e2
    exact huv (by linarith)

theorem slopeDen_pos (x : List K) (h : TwoDistinct x) : 0 < slopeDen x := by
  have hn : (0 : K) < (x.length : K) := by
    have := List.length_pos.mpr h.ne_nil
    exact_mod_cast this
  rw [slopeDen, ← tssOf_eq x h.ne_nil]
  exact mul_pos hn (tssOf_pos x h)

/-- Normal equations: the residuals of the closed-form line sum to zero and
are orthogonal to `x`, so every other line has a larger residual sum. -/
theorem rssOf_ols_le (x y : List K) (hlen : x.length = y.length) (hD : slopeDen x ≠ 0)
    (a b : K) : rssOf x y (olsSlope x y) (olsIntercept x y) ≤ rssOf x y a b := by
  have hx : x ≠ [] := by
    intro h
    apply hD
    simp [h, slopeDen, sumSq]
  have hn := natCast_length_ne_zero x hx
  have hq := sum_sq_nonneg x (fun t => (a - olsSlope x y) * t + (b - olsIntercept x y))
  rw [lineSq_expand] at hq
  have h1 : olsSlope x y * slopeDen x = slopeNum x y := by
    rw [olsSlope]
    field_simp
  have h2 : (x.length : K) * olsIntercept x y = y.sum - olsSlope x y * x.sum := by
    rw [olsIntercept, meanOf, meanOf, ← hlen]
    field_simp
  have h3 : (x.length : K) * (sumXY x y - olsSlope x y * sumSq x - olsIntercept x y * x.sum)
      = 0 := by
    rw [slopeDen, slopeNum] at h1
    linear_combination (-1 : K) * h1 - x.sum * h2
  have h4 : sumXY x y - olsSlope x y * sumSq x - olsIntercept x y * x.sum = 0 := by
    rcases mul_eq_zero.mp h3 with h | h
    · exact absurd h hn
    · exact h
  have key : rssOf x y a b - rssOf x y (olsSlope x y) (olsIntercept x y)
      = (a - olsSlope x y) ^ 2 * sumSq x
        + 2 * (a - olsSlope x y) * (b - olsIntercept x y) * x.sum
        + (x.length : K) * (b - olsIntercept x y) ^ 2 := by
    rw [rssOf_expand x y hlen, rssOf_expand x y hlen]
    linear_combination (-2 * (a - olsSlope x y)) * h4 + (2 * (b - olsIntercept x y)) * h2
  linarith

/-- The samples `y_i = m * x_i + b`. -/
theorem sum_line (m b : K) (x : List K) :
    (x.map (fun t => m * t + b)).sum = m * x.sum + (x.length : K) * b := by
  induction x with
  | nil => simp
  | cons w t ih =>
    simp only [List.map_cons, List.sum_cons, List.length_cons, Nat.cast_add, Nat.cast_one]
    rw [ih]
    ring

theorem sumXY_line (m b : K) (x : List K) :
    sumXY x (x.map (fun t => m * t + b)) = m * sumSq x + b * x.sum := by
  induction x with
  | nil => simp [sumXY, sumSq]
  | cons w t ih =>
    simp only [sumXY, sumSq, List.map_cons, List.zip_cons_cons, List.sum_cons] at ih ⊢
    rw [ih]
    ring

theorem rssOf_line (m b : K) (x : List K) :
    rssOf x (x.map (fun t => m * t + b)) m b = 0 := by
  induction x with
  | nil => simp [rssOf]
  | cons w t ih =>
    simp only [rssOf, List.map_cons, List.zip_cons_cons, List.sum_cons] at ih ⊢
    rw [ih]
    ring

theorem slopeNum_line (m b : K) (x : List K) :
    slopeNum x (x.map (fun t => m * t + b)) = m * slopeDen x := by
  rw [slopeNum, slopeDen, sumXY_line, sum_line]
  ring

theorem meanOf_line (m b : K) (x : List K) (hx : x ≠ []) :
    meanOf (x.map (fun t => m * t + b)) = m * meanOf x + b := by
  have hn := natCast_length_ne_zero x hx
  rw [meanOf, meanOf, sum_line, List.length_map]
  field_simp
  ring

theorem TwoDistinct.line {x : List K} (hx : TwoDistinct x) (m b : K) (hm : m ≠ 0) :
    TwoDistinct (x.map (fun t => m * t + b)) := by
  obtain ⟨u, hu, v, hv, huv⟩ := hx
  refine ⟨m * u + b, List.mem_map.mpr ⟨u, hu, rfl⟩, m * v + b,
    List.mem_map.mpr ⟨v, hv, rfl⟩, ?_⟩
  intro h
  apply huv
  have h2 : m * u = m * v := by linarith
  exact mul_left_cancel₀ hm h2

/-- Samples with `y_i = m * x_i + b` at every index are the image of `x`. -/
theorem eq_map_line (m b : K) (x y : List K) (hlen : x.length = y.length)
    (hy : ∀ p ∈ List.zip x y, p.2 = m * p.1 + b) : y = x.map (fun t => m * t + b) := by
  induction x generalizing y with
  | nil =>
    cases y with
    | nil => rfl
    | cons v r => simp at hlen
  | cons u t ih =>
    cases y with
    | nil => simp at hlen
    | cons v r =>
      have h0 := hy (u, v) (by simp)
      have h1 := ih r (by simpa using hlen) (fun p hp => hy p (by
        rw [List.zip_cons_cons]
        exact List.mem_cons_of_mem _ hp))
      simp only at h0
      rw [List.map_cons, ← h1, h0]

theorem rssOf_nonneg (x y : List K) (s i : K) : 0 ≤ rssOf x y s i :=
  sum_sq_nonneg (List.zip x y) (fun p => p.2 - (s * p.1 + i))

theorem rssOf_eq_zero_iff (x y : List K) (s i : K) :
    rssOf x y s i = 0 ↔ ∀ p ∈ List.zip x y, p.2 - (s * p.1 + i) = 0 := by
  constructor
  · intro h
    exact sum_sq_eq_zero (List.zip x y) (fun p => p.2 - (s * p.1 + i)) h
  · intro h
    rw [rssOf]
    apply List.sum_eq_zero
    intro e he
    obtain ⟨p, hp, rfl⟩ := List.mem_map.mp he
    simp [h p hp]

theorem sum_shift (y : List K) (c : K) :
    (y.map (fun v => v + c)).sum = y.sum + (y.length : K) * c := by
  induction y with
  | nil => simp
  | cons w t ih =>
    simp only [List.map_cons, List.sum_cons, List.length_cons, Nat.cast_add, Nat.cast_one]
    rw [ih]
    ring

theorem sumXY_shift (x y : List K) (hlen : x.length = y.length) (c : K) :
    sumXY x (y.map (fun v => v + c)) = sumXY x y + c * x.sum := by
  induction x generalizing y with
  | nil => simp [sumXY]
  | cons u t ih =>
    cases y with
    | nil => simp at hlen
    | cons v r =>
      have h := ih r (by simpa using hlen)
      simp only [sumXY, List.map_cons, List.zip_cons_cons, List.sum_cons] at h ⊢
      rw [h]
      ring

theorem slopeNum_shift (x y : List K) (hlen : x.length = y.length) (c : K) :
    slopeNum x (y.map (fun v => v + c)) = slopeNum x y := by
  rw [slopeNum, slopeNum, sumXY_shift x y hlen, sum_shift, ← hlen]
  ring

theorem meanOf_shift (y : List K) (hy : y ≠ []) (c : K) :
    meanOf (y.map (fun v => v + c)) = meanOf y + c := by
  have hn := natCast_length_ne_zero y hy
  rw [meanOf, meanOf, sum_shift, List.length_map]
  field_simp
  ring

theorem rssOf_shift (x y : List K) (s i c : K) :
    rssOf x (y.map (fun v => v + c)) s (i + c) = rssOf x y s i := by
  induction x generalizing y with
  | nil => simp [rssOf]
  | cons u t ih =>
    cases y with
    | nil => simp [rssOf]
    | cons v r =>
      have h := ih r
      simp only [rssOf, List.map_cons, List.zip_cons_cons, List.sum_cons] at h ⊢
      rw [h]
      ring

theorem tssOf_shift (y : List K) (c : K) : tssOf (y.map (fun v => v + c)) = tssOf y := by
  by_cases hy : y = []
  · simp [hy, tssOf]
  · rw [tssOf, tssOf, meanOf_shift y hy, List.map_map]
    congr 1
    apply List.map_congr_left
    intro a _
    simp only [Function.comp]
    ring

theorem eq_map_shift (c : K) (y z : List K) (hlen : z.length = y.length)
    (h : ∀ p ∈ List.zip y z, p.2 = p.1 + c) : z = y.map (fun v => v + c) := by
  have e := eq_map_line 1 c y z hlen.symm (fun p hp => by rw [h p hp]; ring)
  rw [e]
  apply List.map_congr_left
  intro a _
  ring

end Algebra

/-! ## One operation without rounding -/

section Ops

open FloatOps

variable (K : Type) [LinearOrderedField K]

theorem roundNE_zero : roundNE 0 = fin 0 := by
  simp [roundNE]

theorem ofRat_zero_f : (ofRat 0 : Tracked).f = fin 0 := roundNE_zero

theorem real_fin (v : ℚ) : (fin v).real K = (v : K) := rfl

theorem val_eq_of_real_eq (a b : F64) (h : a.real K = b.real K) : a.val = b.val := by
  unfold F64.real at h
  exact_mod_cast h

theorem Tracked.add_ok (a b : Tracked) (h : (a + b).ok = true) :
    Good a ∧ Good b ∧ Good (a + b) ∧ (a + b).f.real K = a.f.real K + b.f.real K := by
  have h0 := h
  change (Tracked.add a b).ok = true at h
  simp only [Tracked.add, okFin, exactly, Bool.and_eq_true, decide_eq_true_eq] at h
  obtain ⟨⟨⟨⟨ha, hb⟩, haf⟩, hbf⟩, hfin, hval⟩ := h
  refine ⟨⟨ha, haf⟩, ⟨hb, hbf⟩, ⟨h0, hfin⟩, ?_⟩
  change ((a.f + b.f).val : K) = ((a.f.val : ℚ) : K) + ((b.f.val : ℚ) : K)
  rw [hval]
  push_cast
  rfl

theorem Tracked.sub_ok (a b : Tracked) (h : (a - b).ok = true) :
    Good a ∧ Good b ∧ Good (a - b) ∧ (a - b).f.real K = a.f.real K - b.f.real K := by
  have h0 := h
  change (Tracked.sub a b).ok = true at h
  simp only [Tracked.sub, okFin, exactly, Bool.and_eq_true, decide_eq_true_eq] at h
  obtain ⟨⟨⟨⟨ha, hb⟩, haf⟩, hbf⟩, hfin, hval⟩ := h
  refine ⟨⟨ha, haf⟩, ⟨hb, hbf⟩, ⟨h0, hfin⟩, ?_⟩
  change ((a.f - b.f).val : K) = ((a.f.val : ℚ) : K) - ((b.f.val : ℚ) : K)
  rw [hval]
  push_cast
  rfl

theorem Tracked.mul_ok (a b : Tracked) (h : (a * b).ok = true) :
    Good a ∧ Good b ∧ Good (a * b) ∧ (a * b).f.real K = a.f.real K * b.f.real K := by
  have h0 := h
  change (Tracked.mul a b).ok = true at h
  simp only [Tracked.mul, okFin, exactly, Bool.and_eq_true, decide_eq_true_eq] at h
  obtain ⟨⟨⟨⟨ha, hb⟩, haf⟩, hbf⟩, hfin, hval⟩ := h
  refine ⟨⟨ha, haf⟩, ⟨hb, hbf⟩, ⟨h0, hfin⟩, ?_⟩
  change ((a.f * b.f).val : K) = ((a.f.val : ℚ) : K) * ((b.f.val : ℚ) : K)
  rw [hval]
  push_cast
  rfl

/-- A finite value over a zero is not finite. -/
theorem F64.div_zero_not_finite (a b : F64) (hb : b.val = 0) (ha : a.isFinite = true)
    (hbf : b.isFinite = true) : (a / b).isFinite = false := by
  change (F64.div a b).isFinite = false
  have hinf : ∀ s : Bool, (F64.infS s).isFinite = false := by
    intro s
    cases s <;> rfl
  cases a with
  | fin va =>
    cases b with
    | fin vb =>
      simp only [F64.val] at hb
      subst hb
      simp only [F64.div, F64.toRat?, if_true]
      split_ifs
      · rfl
      · exact hinf _
    | nzero =>
      simp only [F64.div, F64.toRat?, if_true]
      split_ifs
      · rfl
      · exact hinf _
    | pinf => simp [F64.isFinite] at hbf
    | ninf => simp [F64.isFinite] at hbf
    | nan => simp [F64.isFinite] at hbf
  | nzero =>
    cases b with
    | fin vb =>
      simp only [F64.val] at hb
      subst hb
      simp [F64.div, F64.toRat?, F64.isFinite]
    | nzero => simp [F64.div, F64.toRat?, F64.isFinite]
    | pinf => simp [F64.isFinite] at hbf
    | ninf => simp [F64.isFinite] at hbf
    | nan => simp [F64.isFinite] at hbf
  | pinf => simp [F64.isFinite] at ha
  | ninf => simp [F64.isFinite] at ha
  | nan => simp [F64.isFinite] at ha

theorem Tracked.div_ok (a b : Tracked) (h : (a / b).ok = true) :
    Good a ∧ Good b ∧
      ((b.f.val ≠ 0 ∧ (a / b).f.isFinite = true ∧
          (a / b).f.real K = a.f.real K / b.f.real K) ∨
        (b.f.val = 0 ∧ a.f.val ≠ 0)) := by
  change (Tracked.div a b).ok = true at h
  simp only [Tracked.div, okFin, exactly, Bool.and_eq_true, decide_eq_true_eq] at h
  obtain ⟨⟨⟨⟨ha, hb⟩, haf⟩, hbf⟩, hex⟩ := h
  refine ⟨⟨ha, haf⟩, ⟨hb, hbf⟩, ?_⟩
  by_cases hz : b.f.val = 0
  · right
    simp only [hz, if_true, decide_eq_true_eq] at hex
    exact ⟨hz, hex⟩
  · left
    simp only [hz, if_false, Bool.and_eq_true, decide_eq_true_eq] at hex
    refine ⟨hz, hex.1, ?_⟩
    change ((a.f / b.f).val : K) = ((a.f.val : ℚ) : K) / ((b.f.val : ℚ) : K)
    rw [hex.2]
    push_cast
    rfl

theorem Tracked.div_good (a b : Tracked) (h : Good (a / b)) :
    Good a ∧ Good b ∧ b.f.real K ≠ 0 ∧ (a / b).f.real K = a.f.real K / b.f.real K := by
  obtain ⟨ga, gb, hcase⟩ := Tracked.div_ok K a b h.1
  rcases hcase with ⟨hz, _, hv⟩ | ⟨hz, _⟩
  · refine ⟨ga, gb, ?_, hv⟩
    change ((b.f.val : ℚ) : K) ≠ 0
    exact_mod_cast hz
  · exfalso
    have := F64.div_zero_not_finite a.f b.f hz ga.2 gb.2
    have h2 : (a / b).f.isFinite = true := h.2
    change (a.f / b.f).isFinite = true at h2
    rw [this] at h2
    exact Bool.false_ne_true h2

theorem Tracked.sqrt_ok (a : Tracked) (h : (sqrt a).ok = true) :
    Good a ∧ Good (sqrt a) ∧ (sqrt a).f.real K * (sqrt a).f.real K = a.f.real K := by
  have h0 := h
  change (Tracked.sqrt a).ok = true at h
  simp only [Tracked.sqrt, Bool.and_eq_true, decide_eq_true_eq] at h
  obtain ⟨⟨⟨ha, haf⟩, hfin⟩, hval⟩ := h
  refine ⟨⟨ha, haf⟩, ⟨h0, hfin⟩, ?_⟩
  change (((F64.Sqrt a.f).val : ℚ) : K) * (((F64.Sqrt a.f).val : ℚ) : K) = ((a.f.val : ℚ) : K)
  rw [← hval]
  push_cast
  rfl

theorem Tracked.ofRat_ok (q : ℚ) (h : (ofRat q : Tracked).ok = true) :
    Good (ofRat q : Tracked) ∧ (ofRat q : Tracked).f.real K = (q : K) := by
  have h0 := h
  change exactly (roundNE q) q = true at h
  simp only [exactly, Bool.and_eq_true, decide_eq_true_eq] at h
  refine ⟨⟨h0, h.1⟩, ?_⟩
  change (((roundNE q).val : ℚ) : K) = (q : K)
  rw [h.2]

theorem Tracked.ofRat_zero_good : Good (ofRat 0 : Tracked) := by
  constructor
  · change exactly (roundNE 0) 0 = true
    simp [roundNE_zero, exactly, F64.isFinite, F64.val]
  · change (roundNE 0).isFinite = true
    simp [roundNE_zero, F64.isFinite]

theorem Tracked.ofRat_zero_real : (ofRat 0 : Tracked).f.real K = 0 := by
  change (((roundNE 0).val : ℚ) : K) = 0
  simp [roundNE_zero, F64.val]

theorem Tracked.NaN_not_ok : (NaN : Tracked).ok = false := rfl

end Ops

/-! ## The loops without rounding -/

section Loops

open FloatOps

variable (K : Type) [LinearOrderedField K]

theorem zip_map_real (X Y : List Tracked) (F : K → K → K) :
    (List.zip X Y).map (fun p => F (p.1.f.real K) (p.2.f.real K))
      = (List.zip (realsT K X) (realsT K Y)).map (fun p => F p.1 p.2) := by
  rw [realsT, realsT, List.zip_map, List.map_map]
  rfl

theorem foldl_add_good (l : List Tracked) (acc : Tracked)
    (h : Good (l.foldl (fun sum n => sum + n) acc)) :
    Good acc ∧ (l.foldl (fun sum n => sum + n) acc).f.real K
      = acc.f.real K + (realsT K l).sum := by
  induction l generalizing acc with
  | nil =>
    simp only [List.foldl_nil] at h ⊢
    exact ⟨h, by simp [realsT]⟩
  | cons a t ih =>
    simp only [List.foldl_cons] at h ⊢
    obtain ⟨g, hv⟩ := ih (acc + a) h
    obtain ⟨ga, _, _, hadd⟩ := Tracked.add_ok K acc a g.1
    refine ⟨ga, ?_⟩
    rw [hv, hadd]
    simp only [realsT, List.map_cons, List.sum_cons]
    ring

theorem Sum_good (X : List Tracked) (h : Good (stats.Sum X)) :
    X ≠ [] ∧ (stats.Sum X).f.real K = (realsT K X).sum := by
  by_cases hX : X.length = 0
  · exfalso
    have h1 := h.1
    simp only [stats.Sum, hX, if_true] at h1
    exact Bool.false_ne_true h1
  · simp only [stats.Sum, hX, if_false] at h ⊢
    refine ⟨fun hnil => hX (by simp [hnil]), ?_⟩
    rw [(foldl_add_good K X _ h).2, Tracked.ofRat_zero_real, zero_add]

theorem Mean_good (X : List Tracked) (h : Good (stats.Mean X)) :
    X ≠ [] ∧ (stats.Mean X).f.real K = meanOf (realsT K X) := by
  by_cases hX : X.length = 0
  · exfalso
    have h1 := h.1
    simp only [stats.Mean, hX, if_true] at h1
    exact Bool.false_ne_true h1
  · simp only [stats.Mean, hX, if_false] at h ⊢
    obtain ⟨gs, gn, _, hv⟩ := Tracked.div_good K _ _ h
    obtain ⟨hne, hsum⟩ := Sum_good K X gs
    refine ⟨hne, ?_⟩
    rw [hv, hsum, (Tracked.ofRat_ok K _ gn.1).2, meanOf]
    simp [realsT]

theorem lrLoop_good (L : List (Tracked × Tracked)) (acc : Tracked × Tracked)
    (h1 : Good (L.foldl lrStep acc).1) (h2 : Good (L.foldl lrStep acc).2) :
    Good acc.1 ∧ Good acc.2 ∧
      (L.foldl lrStep acc).1.f.real K
        = acc.1.f.real K + (L.map (fun p => p.1.f.real K * p.2.f.real K)).sum ∧
      (L.foldl lrStep acc).2.f.real K
        = acc.2.f.real K + (L.map (fun p => p.1.f.real K * p.1.f.real K)).sum := by
  induction L generalizing acc with
  | nil =>
    simp only [List.foldl_nil] at h1 h2 ⊢
    exact ⟨h1, h2, by simp, by simp⟩
  | cons p t ih =>
    simp only [List.foldl_cons] at h1 h2 ⊢
    obtain ⟨g1, g2, hv1, hv2⟩ := ih (lrStep acc p) h1 h2
    obtain ⟨ga1, gm1, _, hadd1⟩ := Tracked.add_ok K acc.1 (p.1 * p.2) g1.1
    obtain ⟨ga2, gm2, _, hadd2⟩ := Tracked.add_ok K acc.2 (p.1 * p.1) g2.1
    obtain ⟨_, _, _, hmul1⟩ := Tracked.mul_ok K p.1 p.2 gm1.1
    obtain ⟨_, _, _, hmul2⟩ := Tracked.mul_ok K p.1 p.1 gm2.1
    refine ⟨ga1, ga2, ?_, ?_⟩
    · rw [hv1]
      change (acc.1 + p.1 * p.2).f.real K + _ = _
      rw [hadd1, hmul1]
      simp only [List.map_cons, List.sum_cons]
      ring
    · rw [hv2]
      change (acc.2 + p.1 * p.1).f.real K + _ = _
      rw [hadd2, hmul2]
      simp only [List.map_cons, List.sum_cons]
      ring

/-- A float squared is never `-0`. -/
theorem F64.mul_self_ne_nzero (c : F64) : c * c ≠ nzero := by
  change F64.mul c c ≠ nzero
  cases c with
  | fin v =>
    by_cases hv : v = 0
    · simp [F64.mul, F64.toRat?, F64.zeroS, hv]
    · have hpos : 0 < v * v := mul_self_pos.mpr hv
      simp only [F64.mul, F64.toRat?, or_self, hv, if_false, roundNE, hpos.ne.symm, hpos,
        if_true]
      split <;> simp
  | nzero => simp [F64.mul, F64.toRat?, F64.zeroS, F64.isNeg]
  | pinf => simp [F64.mul, F64.toRat?, F64.infS, F64.isNeg]
  | ninf => simp [F64.mul, F64.toRat?, F64.infS, F64.isNeg]
  | nan => simp [F64.mul, F64.toRat?]

/-- An exact sum whose second term is not `-0` is not `-0`. -/
theorem Tracked.add_ne_nzero (a b : Tracked) (h : (a + b).ok = true) (hb : b.f ≠ nzero) :
    (a + b).f ≠ nzero := by
  change (Tracked.add a b).ok = true at h
  simp only [Tracked.add, okFin, exactly, Bool.and_eq_true, decide_eq_true_eq] at h
  obtain ⟨⟨⟨_, haf⟩, hbf⟩, _, hval⟩ := h
  change F64.add a.f b.f ≠ nzero
  change (F64.add a.f b.f).val = a.f.val + b.f.val at hval
  revert hval haf hbf hb
  cases a.f with
  | fin u =>
    cases b.f with
    | fin w =>
      intro _ _ _ hval hz
      simp only [F64.add] at hval hz
      rw [hz] at hval
      simp only [F64.val] at hval
      rw [← hval, roundNE_zero] at hz
      simp at hz
    | nzero => intro hb; exact absurd rfl hb
    | pinf => simp [F64.add]
    | ninf => simp [F64.add]
    | nan => simp [F64.add]
  | nzero =>
    cases b.f with
    | fin w => simp [F64.add]
    | nzero => intro hb; exact absurd rfl hb
    | pinf => simp [F64.add]
    | ninf => simp [F64.add]
    | nan => simp [F64.add]
  | pinf => cases b.f <;> simp [F64.add]
  | ninf => cases b.f <;> simp [F64.add]
  | nan => cases b.f <;> simp [F64.add]

theorem rmLoop_good (S I M : Tracked) (L : List (Tracked × Tracked))
    (acc : Tracked × Tracked)
    (h1 : Good (L.foldl (rmStep S I M) acc).1) (h2 : Good (L.foldl (rmStep S I M) acc).2) :
    Good acc.1 ∧ Good acc.2 ∧
      (L.foldl (rmStep S I M) acc).1.f.real K
        = acc.1.f.real K
          + (L.map (fun p =>
              (p.2.f.real K - (S.f.real K * p.1.f.real K + I.f.real K)) ^ 2)).sum ∧
      (L.foldl (rmStep S I M) acc).2.f.real K
        = acc.2.f.real K + (L.map (fun p => (p.2.f.real K - M.f.real K) ^ 2)).sum ∧
      (acc.1.f ≠ nzero → (L.foldl (rmStep S I M) acc).1.f ≠ nzero) ∧
      (acc.2.f ≠ nzero → (L.foldl (rmStep S I M) acc).2.f ≠ nzero) ∧
      (L ≠ [] → Good S ∧ Good I ∧ Good M) := by
  induction L generalizing acc with
  | nil =>
    simp only [List.foldl_nil] at h1 h2 ⊢
    exact ⟨h1, h2, by simp, by simp, id, id, fun h => absurd rfl h⟩
  | cons p t ih =>
    simp only [List.foldl_cons] at h1 h2 ⊢
    obtain ⟨g1, g2, hv1, hv2, hs1, hs2, _⟩ := ih (rmStep S I M acc p) h1 h2
    have e1 : (rmStep S I M acc p).1
        = acc.1 + (p.2 - (S * p.1 + I)) * (p.2 - (S * p.1 + I)) := rfl
    have e2 : (rmStep S I M acc p).2 = acc.2 + (p.2 - M) * (p.2 - M) := rfl
    rw [e1] at g1 hv1 hs1
    rw [e2] at g2 hv2 hs2
    obtain ⟨ga1, gm1, _, hadd1⟩ := Tracked.add_ok K _ _ g1.1
    obtain ⟨ga2, gm2, _, hadd2⟩ := Tracked.add_ok K _ _ g2.1
    obtain ⟨gr, _, _, hmul1⟩ := Tracked.mul_ok K _ _ gm1.1
    obtain ⟨gd, _, _, hmul2⟩ := Tracked.mul_ok K _ _ gm2.1
    obtain ⟨_, gy, _, hsub1⟩ := Tracked.sub_ok K _ _ gr.1
    obtain ⟨_, gM, _, hsub2⟩ := Tracked.sub_ok K _ _ gd.1
    obtain ⟨gsx, gI, _, hadd3⟩ := Tracked.add_ok K _ _ gy.1
    obtain ⟨gS, _, _, hmul3⟩ := Tracked.mul_ok K _ _ gsx.1
    refine ⟨ga1, ga2, ?_, ?_, ?_, ?_, fun _ => ⟨gS, gI, gM⟩⟩
    · rw [hv1, hadd1, hmul1, hsub1, hadd3, hmul3]
      simp only [List.map_cons, List.sum_cons]
      ring
    · rw [hv2, hadd2, hmul2, hsub2]
      simp only [List.map_cons, List.sum_cons]
      ring
    · intro _
      exact hs1 (Tracked.add_ne_nzero _ _ g1.1 (F64.mul_self_ne_nzero _))
    · intro _
      exact hs2 (Tracked.add_ne_nzero _ _ g2.1 (F64.mul_self_ne_nzero _))

theorem natCast_real (n : Nat) (h : (ofRat (n : ℚ) : Tracked).ok = true) :
    (ofRat (n : ℚ) : Tracked).f.real K = (n : K) := by
  rw [(Tracked.ofRat_ok K _ h).2]
  simp

/-- What `linearRegression` returns when none of its operations rounds: the
closed-form least-squares line of the real values of the samples. -/
theorem linearRegression_tracked (X Y : List Tracked) (s i : Tracked)
    (h : linearRegression X Y = Except.ok (s, i)) (hs : s.ok = true) (hi : i.ok = true) :
    X.length = Y.length ∧ Good s ∧ Good i ∧ slopeDen (realsT K X) ≠ 0 ∧
      s.f.real K = olsSlope (realsT K X) (realsT K Y) ∧
      i.f.real K = olsIntercept (realsT K X) (realsT K Y) := by
  by_cases hlen : X.length = Y.length
  swap
  · simp [linearRegression, hlen] at h
  have hne : ¬ (X.length ≠ Y.length) := not_not.mpr hlen
  unfold linearRegression at h
  rw [if_neg hne] at h
  simp only [Except.ok.injEq, Prod.mk.injEq] at h
  obtain ⟨hse, hie⟩ := h
  subst hse
  subst hie
  obtain ⟨gmY, gsm, gi, hvi⟩ := Tracked.sub_ok K _ _ hi
  obtain ⟨gs, gmX, _, hvm⟩ := Tracked.mul_ok K _ _ gsm.1
  obtain ⟨gnum, gden, hden, hvs⟩ := Tracked.div_good K _ _ gs
  obtain ⟨gn1, gss, _, hvnum⟩ := Tracked.sub_ok K _ _ gnum.1
  obtain ⟨gn, gL1, _, hvn1⟩ := Tracked.mul_ok K _ _ gn1.1
  obtain ⟨gsX, gsY, _, hvss⟩ := Tracked.mul_ok K _ _ gss.1
  obtain ⟨gn2, gxx, _, hvden⟩ := Tracked.sub_ok K _ _ gden.1
  obtain ⟨_, gL2, _, hvn2⟩ := Tracked.mul_ok K _ _ gn2.1
  obtain ⟨_, _, _, hvxx⟩ := Tracked.mul_ok K _ _ gxx.1
  obtain ⟨_, _, hL1, hL2⟩ := lrLoop_good K (List.zip X Y) _ gL1 gL2
  obtain ⟨_, hsX⟩ := Sum_good K X gsX
  obtain ⟨_, hsY⟩ := Sum_good K Y gsY
  obtain ⟨_, hmX⟩ := Mean_good K X gmX
  obtain ⟨_, hmY⟩ := Mean_good K Y gmY
  have hn := natCast_real K X.length gn.1
  have hlenR : (realsT K X).length = (realsT K Y).length := by simp [realsT, hlen]
  have eXY : (List.zip X Y).map (fun p => p.1.f.real K * p.2.f.real K)
      = (List.zip (realsT K X) (realsT K Y)).map (fun p => p.1 * p.2) :=
    zip_map_real K X Y (fun a b => a * b)
  have eXX : (List.zip X Y).map (fun p => p.1.f.real K * p.1.f.real K)
      = (List.zip (realsT K X) (realsT K Y)).map (fun p => p.1 * p.1) :=
    zip_map_real K X Y (fun a _ => a * a)
  simp only [Tracked.ofRat_zero_real, zero_add] at hL1 hL2
  rw [eXY] at hL1
  rw [eXX, zip_sq_fst _ _ hlenR] at hL2
  have hnumv : (ofRat (X.length : ℚ) * (List.foldl lrStep (ofRat 0, ofRat 0) (X.zip Y)).1
      - stats.Sum X * stats.Sum Y : Tracked).f.real K
      = slopeNum (realsT K X) (realsT K Y) := by
    rw [hvnum, hvn1, hvss, hn, hL1, hsX, hsY, slopeNum, sumXY]
    simp [realsT]
  have hdenv : (ofRat (X.length : ℚ) * (List.foldl lrStep (ofRat 0, ofRat 0) (X.zip Y)).2
      - stats.Sum X * stats.Sum X : Tracked).f.real K
      = slopeDen (realsT K X) := by
    rw [hvden, hvn2, hvxx, hn, hL2, hsX, slopeDen]
    simp [realsT]
  rw [hnumv, hdenv] at hvs
  rw [hdenv] at hden
  rw [hvm, hvs, hmX, hmY] at hvi
  exact ⟨hlen, gs, gi, hden, hvs, hvi⟩

theorem regressionMetrics_eq {α : Type} [FloatOps α] (x y : List α) (slope intercept : α)
    (hlen : x.length = y.length) :
    regressionMetrics x y slope intercept
      = some (ofRat 1 - (rmSums x y slope intercept).1 / (rmSums x y slope intercept).2,
          sqrt ((rmSums x y slope intercept).1 / (ofRat (x.length : ℚ) - ofRat 2)),
          ((rmSums x y slope intercept).2 - (rmSums x y slope intercept).1) / ofRat 1
            / ((rmSums x y slope intercept).1 / (ofRat (x.length : ℚ) - ofRat 2))) := by
  have hlt : ¬ y.length < x.length := by omega
  unfold regressionMetrics
  rw [if_neg hlt]
  rfl

/-- The accumulators of `regressionMetrics` when none of their operations
rounds: the residual and the total sum of squares, neither of them `-0`. -/
theorem rmSums_good (X Y : List Tracked) (S I : Tracked) (hlen : X.length = Y.length)
    (h1 : Good (rmSums X Y S I).1) (h2 : Good (rmSums X Y S I).2) :
    (rmSums X Y S I).1.f.real K
        = rssOf (realsT K X) (realsT K Y) (S.f.real K) (I.f.real K) ∧
      (rmSums X Y S I).2.f.real K = tssOf (realsT K Y) ∧
      (rmSums X Y S I).1.f ≠ nzero ∧ (rmSums X Y S I).2.f ≠ nzero := by
  obtain ⟨_, _, hv1, hv2, hs1, hs2, hM⟩ := rmLoop_good K S I (stats.Mean Y) (List.zip X Y)
    (ofRat 0, ofRat 0) h1 h2
  have hlenR : (realsT K X).length = (realsT K Y).length := by simp [realsT, hlen]
  have e1 := zip_map_real K X Y (fun a b => (b - (S.f.real K * a + I.f.real K)) ^ 2)
  have e2 := zip_map_real K X Y (fun _ b => (b - (stats.Mean Y).f.real K) ^ 2)
  simp only [Tracked.ofRat_zero_real, zero_add] at hv1 hv2
  rw [e1] at hv1
  rw [e2, zip_sq_snd _ _ hlenR] at hv2
  have hz : (ofRat 0 : Tracked).f ≠ nzero := by
    rw [ofRat_zero_f]
    simp
  refine ⟨hv1, ?_, hs1 hz, hs2 hz⟩
  change (List.foldl (rmStep S I (stats.Mean Y)) (ofRat 0, ofRat 0) (X.zip Y)).2.f.real K = _
  rw [hv2, tssOf]
  cases Y with
  | nil => simp [realsT]
  | cons b t =>
    cases X with
    | nil => simp at hlen
    | cons a r =>
      have hne : List.zip (a :: r) (b :: t) ≠ [] := by simp
      rw [(Mean_good K _ (hM hne).2.2).2]

theorem raw_r2 (rss tss : Tracked) (h : (ofRat 1 - rss / tss : Tracked).ok = true) :
    Good rss ∧ Good tss ∧ tss.f.real K ≠ 0 ∧ Good (ofRat 1 - rss / tss : Tracked) ∧
      (ofRat 1 - rss / tss : Tracked).f.real K = 1 - rss.f.real K / tss.f.real K := by
  obtain ⟨g1, gq, gr, hv⟩ := Tracked.sub_ok K _ _ h
  obtain ⟨grss, gtss, hne, hq⟩ := Tracked.div_good K _ _ gq
  refine ⟨grss, gtss, hne, gr, ?_⟩
  rw [hv, hq, (Tracked.ofRat_ok K _ g1.1).2]
  simp

theorem raw_quot (rss n : Tracked) (h : Good (rss / (n - ofRat 2))) :
    Good rss ∧ Good n ∧ Good (n - ofRat 2) ∧ n.f.real K - 2 ≠ 0 ∧
      (n - ofRat 2 : Tracked).f.real K = n.f.real K - 2 ∧
      (rss / (n - ofRat 2)).f.real K = rss.f.real K / (n.f.real K - 2) := by
  obtain ⟨grss, gd, hne, hq⟩ := Tracked.div_good K _ _ h
  obtain ⟨gn, g2, _, hd⟩ := Tracked.sub_ok K _ _ gd.1
  have h2 : (ofRat 2 : Tracked).f.real K = 2 := by
    rw [(Tracked.ofRat_ok K _ g2.1).2]
    simp
  rw [h2] at hd
  rw [hd] at hne hq
  exact ⟨grss, gn, gd, hne, hd, hq⟩

theorem raw_rse (rss n : Tracked) (h : (sqrt (rss / (n - ofRat 2)) : Tracked).ok = true) :
    Good (rss / (n - ofRat 2)) ∧ Good (sqrt (rss / (n - ofRat 2)) : Tracked) ∧
      (sqrt (rss / (n - ofRat 2)) : Tracked).f.real K
          * (sqrt (rss / (n - ofRat 2)) : Tracked).f.real K
        = rss.f.real K / (n.f.real K - 2) := by
  obtain ⟨gq, gs, hv⟩ := Tracked.sqrt_ok K _ h
  obtain ⟨_, _, _, _, _, hq⟩ := raw_quot K rss n gq
  rw [hq] at hv
  exact ⟨gq, gs, hv⟩

theorem raw_f (rss tss n : Tracked)
    (h : ((tss - rss) / ofRat 1 / (rss / (n - ofRat 2)) : Tracked).ok = true) :
    Good ((tss - rss) / ofRat 1) ∧ Good (rss / (n - ofRat 2)) ∧ Good rss ∧ Good tss ∧
      ((tss - rss) / ofRat 1 : Tracked).f.real K = tss.f.real K - rss.f.real K ∧
      (((rss / (n - ofRat 2)).f.val ≠ 0 ∧
          ((tss - rss) / ofRat 1 / (rss / (n - ofRat 2)) : Tracked).f.isFinite = true ∧
          ((tss - rss) / ofRat 1 / (rss / (n - ofRat 2)) : Tracked).f.real K
            = (tss.f.real K - rss.f.real K) / (rss / (n - ofRat 2)).f.real K) ∨
        ((rss / (n - ofRat 2)).f.val = 0 ∧ ((tss - rss) / ofRat 1 : Tracked).f.val ≠ 0)) := by
  obtain ⟨gnum, gq, hcase⟩ := Tracked.div_ok K _ _ h
  obtain ⟨gd, g1, _, hnum⟩ := Tracked.div_good K _ _ gnum
  obtain ⟨gtss, grss, _, hd⟩ := Tracked.sub_ok K _ _ gd.1
  have h1 : (ofRat 1 : Tracked).f.real K = 1 := by
    rw [(Tracked.ofRat_ok K _ g1.1).2]
    simp
  rw [hd, h1, div_one] at hnum
  refine ⟨gnum, gq, grss, gtss, hnum, ?_⟩
  rcases hcase with ⟨hz, hfin, hv⟩ | ⟨hz, hnz⟩
  · left
    rw [hnum] at hv
    exact ⟨hz, hfin, hv⟩
  · right
    exact ⟨hz, hnz⟩

end Loops

/-! ## The ghost bit does not change the floats -/

section Erase

open FloatOps

theorem foldl_erase (l : List Tracked) (acc : Tracked) :
    (l.map Tracked.f).foldl (fun sum n => sum + n) acc.f
      = (l.foldl (fun sum n => sum + n) acc).f := by
  induction l generalizing acc with
  | nil => rfl
  | cons a t ih =>
    simp only [List.map_cons, List.foldl_cons]
    exact ih (acc + a)

theorem Sum_erase (X : List Tracked) : stats.Sum (X.map Tracked.f) = (stats.Sum X).f := by
  by_cases hX : X.length = 0
  · simp only [stats.Sum, List.length_map, hX, if_true]
    rfl
  · simp only [stats.Sum, List.length_map, hX, if_false]
    exact foldl_erase X (ofRat 0)

theorem Mean_erase (X : List Tracked) : stats.Mean (X.map Tracked.f) = (stats.Mean X).f := by
  by_cases hX : X.length = 0
  · simp only [stats.Mean, List.length_map, hX, if_true]
    rfl
  · simp only [stats.Mean, List.length_map, hX, if_false, Sum_erase]
    rfl

theorem lrLoop_erase (L : List (Tracked × Tracked)) (acc : Tracked × Tracked) :
    (L.map (Prod.map Tracked.f Tracked.f)).foldl lrStep (acc.1.f, acc.2.f)
      = ((L.foldl lrStep acc).1.f, (L.foldl lrStep acc).2.f) := by
  induction L generalizing acc with
  | nil => rfl
  | cons p t ih =>
    simp only [List.map_cons, List.foldl_cons]
    exact ih (lrStep acc p)

theorem rmLoop_erase (S I M : Tracked) (L : List (Tracked × Tracked))
    (acc : Tracked × Tracked) :
    (L.map (Prod.map Tracked.f Tracked.f)).foldl (rmStep S.f I.f M.f) (acc.1.f, acc.2.f)
      = ((L.foldl (rmStep S I M) acc).1.f, (L.foldl (rmStep S I M) acc).2.f) := by
  induction L generalizing acc with
  | nil => rfl
  | cons p t ih =>
    simp only [List.map_cons, List.foldl_cons]
    exact ih (rmStep S I M acc p)

theorem linearRegression_erase (X Y : List Tracked) (s i : Tracked)
    (h : linearRegression X Y = Except.ok (s, i)) :
    linearRegression (X.map Tracked.f) (Y.map Tracked.f) = Except.ok (s.f, i.f) := by
  by_cases hlen : X.length = Y.length
  swap
  · simp [linearRegression, hlen] at h
  have hne : ¬ (X.length ≠ Y.length) := not_not.mpr hlen
  have hne2 : ¬ ((X.map Tracked.f).length ≠ (Y.map Tracked.f).length) := by simpa using hlen
  unfold linearRegression at h ⊢
  rw [if_neg hne] at h
  rw [if_neg hne2]
  simp only [Except.ok.injEq, Prod.mk.injEq] at h
  obtain ⟨hs, hi⟩ := h
  subst hs
  subst hi
  simp only [List.zip_map, List.length_map, Sum_erase, Mean_erase]
  have e := lrLoop_erase (List.zip X Y) (ofRat 0, ofRat 0)
  change List.foldl lrStep ((ofRat 0 : F64), (ofRat 0 : F64)) _ = _ at e
  rw [e]
  rfl

theorem rmSums_erase (X Y : List Tracked) (S I : Tracked) :
    rmSums (X.map Tracked.f) (Y.map Tracked.f) S.f I.f
      = ((rmSums X Y S I).1.f, (rmSums X Y S I).2.f) := by
  unfold rmSums
  rw [List.zip_map, Mean_erase]
  exact rmLoop_erase S I (stats.Mean Y) (List.zip X Y) (ofRat 0, ofRat 0)

theorem regressionMetrics_erase (X Y : List Tracked) (S I r2 rse f : Tracked)
    (hlen : X.length = Y.length)
    (h : regressionMetrics X Y S I = some (r2, rse, f)) :
    regressionMetrics (X.map Tracked.f) (Y.map Tracked.f) S.f I.f
      = some (r2.f, rse.f, f.f) := by
  rw [regressionMetrics_eq X Y S I hlen] at h
  rw [regressionMetrics_eq _ _ _ _ (by simpa using hlen), rmSums_erase]
  simp only [Option.some.injEq, Prod.mk.injEq] at h
  obtain ⟨h1, h2, h3⟩ := h
  subst h1
  subst h2
  subst h3
  simp only [List.length_map]
  rfl

theorem map_track_erase (x : List F64) : (x.map track).map Tracked.f = x := by
  rw [List.map_map]
  exact List.map_id x

theorem realsT_track (K : Type) [LinearOrderedField K] (x : List F64) :
    realsT K (x.map track) = reals K x := by
  rw [realsT, reals, List.map_map]
  rfl

end Erase

/-! ## From the ghost run to the run of the program -/

section Assembly

variable (K : Type) [LinearOrderedField K]

theorem fitExact_values (x y : List F64) (h : fitExact x y = true) :
    x.length = y.length ∧ ∃ s i : F64, linearRegression x y = Except.ok (s, i) ∧
      s.isFinite = true ∧ i.isFinite = true ∧ slopeDen (reals K x) ≠ 0 ∧
      s.real K = olsSlope (reals K x) (reals K y) ∧
      i.real K = olsIntercept (reals K x) (reals K y) := by
  unfold fitExact at h
  split at h
  next S I heq =>
    simp only [Bool.and_eq_true] at h
    obtain ⟨hlen, gs, gi, hden, hvs, hvi⟩ := linearRegression_tracked K _ _ S I heq h.1 h.2
    have her := linearRegression_erase _ _ S I heq
    rw [map_track_erase, map_track_erase] at her
    simp only [realsT_track] at hden hvs hvi
    refine ⟨by simpa using hlen, S.f, I.f, her, gs.2, gi.2, hden, hvs, hvi⟩
  next => exact absurd h Bool.false_ne_true

theorem reals_length (x : List F64) : (reals K x).length = x.length := by
  simp [reals]

theorem zip_reals (x y : List F64) :
    List.zip (reals K x) (reals K y)
      = (List.zip x y).map (fun p => (p.1.real K, p.2.real K)) := by
  rw [reals, reals, List.zip_map]
  rfl

theorem onLine_reals (m b : K) (x y : List F64) (hlen : x.length = y.length)
    (hy : OnLine K m b x y) : reals K y = (reals K x).map (fun t => m * t + b) := by
  apply eq_map_line m b _ _ (by simp [reals_length, hlen])
  intro p hp
  rw [zip_reals] at hp
  obtain ⟨q, hq, rfl⟩ := List.mem_map.mp hp
  exact hy q hq

theorem nonempty_of_slopeDen {x : List K} (h : slopeDen x ≠ 0) : x ≠ [] := by
  intro hx
  apply h
  simp [hx, slopeDen, sumSq]

/-- The fit on samples of a line, when no operation rounds. -/
theorem fitExact_line (m b : K) (x y : List F64) (hy : OnLine K m b x y)
    (h : fitExact x y = true) :
    ∃ s i : F64, linearRegression x y = Except.ok (s, i) ∧
      s.isFinite = true ∧ i.isFinite = true ∧ s.real K = m ∧ i.real K = b := by
  obtain ⟨hlen, s, i, hfit, hs, hi, hden, hvs, hvi⟩ := fitExact_values K x y h
  have e := onLine_reals K m b x y hlen hy
  have hne := nonempty_of_slopeDen K hden
  have hsm : s.real K = m := by
    rw [hvs, olsSlope, e, slopeNum_line]
    field_simp
  refine ⟨s, i, hfit, hs, hi, hsm, ?_⟩
  rw [hvi, olsIntercept, ← hvs, hsm, e, meanOf_line m b _ hne]
  ring

end Assembly

/-! ## The ghost run of the metrics calculator -/

section Metrics

open FloatOps

variable (K : Type) [LinearOrderedField K]

theorem track_length (x y : List F64) (hlen : x.length = y.length) :
    (x.map track).length = (y.map track).length := by
  simpa using hlen

theorem regressionMetrics_track (x y : List F64) (s i : F64) (hlen : x.length = y.length) :
    regressionMetrics (x.map track) (y.map track) (track s) (track i)
      = some (r2T x y s i, rseT x y s i, fT x y s i) := by
  rw [regressionMetrics_eq _ _ _ _ (track_length x y hlen)]
  simp only [List.length_map]
  rfl

theorem regressionMetrics_plain (x y : List F64) (s i : F64) (hlen : x.length = y.length) :
    regressionMetrics x y s i = some ((r2T x y s i).f, (rseT x y s i).f, (fT x y s i).f) := by
  have h := regressionMetrics_erase _ _ _ _ _ _ _ (track_length x y hlen)
    (regressionMetrics_track x y s i hlen)
  rw [map_track_erase, map_track_erase] at h
  exact h

theorem rmSums_plain (x y : List F64) (s i : F64) :
    rmSums x y s i = ((rssT x y s i).f, (tssT x y s i).f) := by
  have h := rmSums_erase (x.map track) (y.map track) (track s) (track i)
  rw [map_track_erase, map_track_erase] at h
  exact h

theorem r2Exact_eq (x y : List F64) (s i : F64) (hlen : x.length = y.length) :
    r2Exact x y s i = (r2T x y s i).ok := by
  simp only [r2Exact, regressionMetrics_track x y s i hlen]

theorem rseExact_eq (x y : List F64) (s i : F64) (hlen : x.length = y.length) :
    rseExact x y s i = (rseT x y s i).ok := by
  simp only [rseExact, regressionMetrics_track x y s i hlen]

theorem fExact_eq (x y : List F64) (s i : F64) (hlen : x.length = y.length) :
    fExact x y s i = (fT x y s i).ok := by
  simp only [fExact, regressionMetrics_track x y s i hlen]

theorem fExactFinite_eq (x y : List F64) (s i : F64) (hlen : x.length = y.length) :
    fExactFinite x y s i = ((fT x y s i).ok && (fT x y s i).f.isFinite) := by
  simp only [fExactFinite, regressionMetrics_track x y s i hlen]

/-- The accumulators of the ghost run, when exact: the sums of squares of the
real values, as non-negative floats that are not `-0`. -/
theorem sums_values (x y : List F64) (s i : F64) (hlen : x.length = y.length)
    (h1 : Good (rssT x y s i)) (h2 : Good (tssT x y s i)) :
    (rssT x y s i).f.real K = rssOf (reals K x) (reals K y) (s.real K) (i.real K) ∧
      (tssT x y s i).f.real K = tssOf (reals K y) ∧
      (rssT x y s i).f = fin (rssT x y s i).f.val ∧
      (tssT x y s i).f = fin (tssT x y s i).f.val := by
  obtain ⟨hv1, hv2, hz1, hz2⟩ := rmSums_good K _ _ _ _ (track_length x y hlen) h1 h2
  rw [realsT_track, realsT_track] at hv1
  rw [realsT_track] at hv2
  have efin : ∀ a : F64, a.isFinite = true → a ≠ nzero → a = fin a.val := by
    intro a hf hz
    cases a <;> simp_all [F64.isFinite, F64.val]
  exact ⟨hv1, hv2, efin _ h1.2 hz1, efin _ h2.2 hz2⟩

theorem real_eq_zero (a : F64) (h : a.real K = 0) : a.val = 0 := by
  unfold F64.real at h
  exact_mod_cast h

theorem real_pos (a : F64) (h : 0 < a.real K) : 0 < a.val := by
  unfold F64.real at h
  exact_mod_cast h

theorem eq_fin_of_val_ne_zero (a : F64) (hf : a.isFinite = true) (hz : a.val ≠ 0) :
    a = fin a.val := by
  cases a <;> simp_all [F64.isFinite, F64.val]

theorem F64.div_zero_pos (w : ℚ) (hw : 0 < w) : (fin 0 : F64) / fin w = fin 0 := by
  change F64.div (fin 0) (fin w) = fin 0
  simp [F64.div, F64.toRat?, hw.ne.symm, F64.zeroS, F64.isNeg, not_lt.mpr hw.le]

theorem F64.div_pos_zero (t : ℚ) (ht : 0 < t) : (fin t : F64) / fin 0 = pinf := by
  change F64.div (fin t) (fin 0) = pinf
  simp [F64.div, F64.toRat?, ht.ne.symm, F64.infS, F64.isNeg, not_lt.mpr ht.le]

theorem length_sub_two_pos (x : List F64) (hn : 2 < x.length) : (0 : K) < (x.length : K) - 2 := by
  have h : ((2 : Nat) : K) < (x.length : K) := by exact_mod_cast hn
  have h2 : ((2 : Nat) : K) = 2 := by norm_num
  linarith

/-- The divisor `rss / (n - 2)` of the ghost run is `+0` when the residual sum
of squares is zero and there are more than two samples. -/
theorem quotT_zero (x y : List F64) (s i : F64) (hlen : x.length = y.length)
    (hn : 2 < x.length) (hq : Good (quotT x y s i)) (htss : Good (tssT x y s i))
    (hrss : rssOf (reals K x) (reals K y) (s.real K) (i.real K) = 0) :
    (quotT x y s i).f = fin 0 := by
  obtain ⟨grss, gn, gd, _, hd, _⟩ := raw_quot K _ _ hq
  obtain ⟨hv1, _, hf1, _⟩ := sums_values K x y s i hlen grss htss
  have hr0 : (rssT x y s i).f = fin 0 := by
    rw [hf1, real_eq_zero K _ (hv1.trans hrss)]
  have hnr : (nT x).f.real K = (x.length : K) := natCast_real K x.length gn.1
  rw [hnr] at hd
  have hpos : 0 < (nT x - ofRat 2 : Tracked).f.val := by
    apply real_pos K
    rw [hd]
    exact length_sub_two_pos K x hn
  have hdf := eq_fin_of_val_ne_zero _ gd.2 hpos.ne.symm
  change (rssT x y s i).f / (nT x - ofRat 2 : Tracked).f = fin 0
  rw [hr0, hdf]
  exact F64.div_zero_pos _ hpos

theorem zip_reals_forall (x y : List F64) (P : K → K → Prop) :
    (∀ p ∈ List.zip (reals K x) (reals K y), P p.1 p.2)
      ↔ ∀ p ∈ List.zip x y, P (p.1.real K) (p.2.real K) := by
  rw [zip_reals]
  constructor
  · intro h p hp
    exact h _ (List.mem_map.mpr ⟨p, hp, rfl⟩)
  · intro h p hp
    obtain ⟨q, hq, rfl⟩ := List.mem_map.mp hp
    exact h q hq

end Metrics

/-! ## What rounding cannot break -/

section Robust

open FloatOps

theorem log2Aux_eq (k n acc : Nat) (h : n ≤ k) :
    F64.log2Aux k n acc = acc + Nat.log 2 n := by
  induction k generalizing n acc with
  | zero =>
    have h0 : n = 0 := by omega
    subst h0
    simp [F64.log2Aux]
  | succ k ih =>
    unfold F64.log2Aux
    split_ifs with h2
    · rw [Nat.log_of_lt h2]
      rfl
    · have h3 : 2 ≤ n := by omega
      rw [ih (n / 2) (acc + 1) (by omega), Nat.log_of_one_lt_of_le (by norm_num) h3]
      omega

theorem log2_eq (n : Nat) : F64.log2 n = Nat.log 2 n := by
  rw [F64.log2, log2Aux_eq n n 0 le_rfl, zero_add]

theorem pow2_pos (e : Int) : 0 < F64.pow2 e := by
  unfold F64.pow2
  split_ifs <;> positivity

theorem pow2_neg (e : Int) (he : e < 0) :
    F64.pow2 e = 1 / ((2 ^ (-e).toNat : Nat) : ℚ) := by
  unfold F64.pow2
  rw [if_neg (by omega)]

theorem ilog2_nonpos (t : ℚ) (h0 : 0 < t) (h1 : t < 1) : F64.ilog2 t ≤ 0 := by
  have hnum : t.num < (t.den : Int) := Rat.lt_one_iff_num_lt_denom.mp h1
  have hpos : 0 < t.num := Rat.num_pos.mpr h0
  have hle : t.num.natAbs ≤ t.den := by omega
  have hlog : F64.log2 t.num.natAbs ≤ F64.log2 t.den := by
    rw [log2_eq, log2_eq]
    exact Nat.log_mono_right hle
  unfold F64.ilog2
  simp only
  split_ifs <;> omega

theorem floor_le (u : ℚ) (hu : 0 ≤ u) : ((u.num.toNat / u.den : Nat) : ℚ) ≤ u := by
  have hden : (0 : ℚ) < (u.den : ℚ) := by exact_mod_cast u.den_pos
  have hnum : ((u.num.toNat : Int)) = u.num := Int.toNat_of_nonneg (Rat.num_nonneg.mpr hu)
  have h1 : u.num.toNat / u.den * u.den ≤ u.num.toNat := Nat.div_mul_le_self _ _
  have h2 : ((u.num.toNat / u.den : Nat) : ℚ) * (u.den : ℚ) ≤ (u.num.toNat : ℚ) := by
    exact_mod_cast h1
  have h3 : (u.num.toNat : ℚ) = (u.num : ℚ) := by exact_mod_cast hnum
  calc ((u.num.toNat / u.den : Nat) : ℚ)
      ≤ (u.num.toNat : ℚ) / (u.den : ℚ) := by
        rw [le_div_iff₀ hden]
        exact h2
    _ = (u.num : ℚ) / (u.den : ℚ) := by rw [h3]
    _ = u := Rat.num_div_den u

theorem nearestEven_le (u : ℚ) (hu : 0 ≤ u) (N : Nat) (h : u ≤ (N : ℚ)) :
    F64.nearestEven u ≤ N := by
  have hm := floor_le u hu
  have hmN : u.num.toNat / u.den ≤ N := by
    have : ((u.num.toNat / u.den : Nat) : ℚ) ≤ (N : ℚ) := le_trans hm h
    exact_mod_cast this
  unfold F64.nearestEven
  simp only
  have key : ¬ (u - ((u.num.toNat / u.den : Nat) : ℚ) < 1 / 2) → u.num.toNat / u.den + 1 ≤ N := by
    intro hr
    have h5 : ((u.num.toNat / u.den : Nat) : ℚ) < (N : ℚ) := by linarith
    have h6 : u.num.toNat / u.den < N := by exact_mod_cast h5
    omega
  split_ifs with h1 h2 h3
  · exact hmN
  · exact key h1
  · exact hmN
  · exact key h1

theorem roundPos_nonneg (q v : ℚ) (h : F64.roundPos q = some v) : 0 ≤ v := by
  unfold F64.roundPos at h
  simp only at h
  split_ifs at h
  simp only [Option.some.injEq] at h
  rw [← h]
  exact mul_nonneg (Nat.cast_nonneg _) (pow2_pos _).le

theorem roundPos_le_one (t : ℚ) (h0 : 0 < t) (h1 : t < 1) :
    ∃ v, F64.roundPos t = some v ∧ 0 ≤ v ∧ v ≤ 1 := by
  have he : max (F64.ilog2 t - 52) (-1074) < 0 := by
    have := ilog2_nonpos t h0 h1
    omega
  have hp := pow2_neg _ he
  have hN : (0 : ℚ) < ((2 ^ (-(max (F64.ilog2 t - 52) (-1074))).toNat : Nat) : ℚ) := by
    positivity
  have hpN : ((2 ^ (-(max (F64.ilog2 t - 52) (-1074))).toNat : Nat) : ℚ)
      * F64.pow2 (max (F64.ilog2 t - 52) (-1074)) = 1 := by
    rw [hp]
    field_simp
  have hu : t / F64.pow2 (max (F64.ilog2 t - 52) (-1074))
      ≤ ((2 ^ (-(max (F64.ilog2 t - 52) (-1074))).toNat : Nat) : ℚ) := by
    rw [div_le_iff₀ (pow2_pos _), hpN]
    exact h1.le
  have hne := nearestEven_le _ (div_nonneg h0.le (pow2_pos _).le) _ hu
  have hv : (F64.nearestEven (t / F64.pow2 (max (F64.ilog2 t - 52) (-1074))) : ℚ)
      * F64.pow2 (max (F64.ilog2 t - 52) (-1074)) ≤ 1 := by
    have hc : (F64.nearestEven (t / F64.pow2 (max (F64.ilog2 t - 52) (-1074))) : ℚ)
        ≤ ((2 ^ (-(max (F64.ilog2 t - 52) (-1074))).toNat : Nat) : ℚ) := by exact_mod_cast hne
    calc _ ≤ ((2 ^ (-(max (F64.ilog2 t - 52) (-1074))).toNat : Nat) : ℚ)
          * F64.pow2 (max (F64.ilog2 t - 52) (-1074)) :=
            mul_le_mul_of_nonneg_right hc (pow2_pos _).le
      _ = 1 := hpN
  have h1024 : (1 : ℚ) < F64.pow2 1024 := by
    unfold F64.pow2
    rw [if_pos (by decide : (0 : Int) ≤ 1024)]
    exact Nat.one_lt_cast.mpr (Nat.one_lt_two_pow (by decide))
  refine ⟨_, ?_, mul_nonneg (Nat.cast_nonneg _) (pow2_pos _).le, hv⟩
  unfold F64.roundPos
  simp only
  rw [if_neg (by linarith)]

theorem roundNE_one : roundNE 1 = fin 1 := by decide!

theorem roundNE_nonneg (q : ℚ) (hq : 0 ≤ q) : (roundNE q).NonNeg := by
  unfold roundNE
  split_ifs with h1 h2
  · exact Or.inr (Or.inr ⟨0, le_rfl, rfl⟩)
  · split
    next v hv => exact Or.inr (Or.inr ⟨v, roundPos_nonneg _ _ hv, rfl⟩)
    next => exact Or.inr (Or.inl rfl)
  · exact absurd (lt_of_le_of_ne hq (Ne.symm h1)) h2

/-- A float below 1 rounds to a float that is at most 1. -/
theorem roundNE_le_one (t : ℚ) (ht : t < 1) : F64.le (roundNE t) (fin 1) = true := by
  unfold roundNE
  split_ifs with h1 h2
  · simp [F64.le, F64.val]
  · obtain ⟨v, hv, _, hv1⟩ := roundPos_le_one t h2 ht
    rw [hv]
    simp [F64.le, F64.val, hv1]
  · split
    next v hv =>
      have := roundPos_nonneg _ _ hv
      split_ifs
      · simp [F64.le, F64.val]
      · simp only [F64.le, F64.val, decide_eq_true_eq]
        linarith
    next => rfl

theorem F64.sq_nonNeg (c : F64) : (c * c).NonNeg := by
  change (F64.mul c c).NonNeg
  cases c with
  | fin v =>
    by_cases hv : v = 0
    · simp only [F64.mul, F64.toRat?, hv, or_self, if_true, Bool.xor_self, F64.zeroS]
      exact Or.inr (Or.inr ⟨0, le_rfl, rfl⟩)
    · simp only [F64.mul, F64.toRat?, or_self, hv, if_false]
      exact roundNE_nonneg _ (mul_self_nonneg v)
  | nzero =>
    simp only [F64.mul, F64.toRat?, or_self, if_true, Bool.xor_self, F64.zeroS]
    exact Or.inr (Or.inr ⟨0, le_rfl, rfl⟩)
  | pinf => exact Or.inr (Or.inl (by simp [F64.mul, F64.toRat?, F64.infS]))
  | ninf => exact Or.inr (Or.inl (by simp [F64.mul, F64.toRat?, F64.infS]))
  | nan => exact Or.inl (by simp [F64.mul, F64.toRat?])

theorem F64.add_nonNeg (a b : F64) (ha : a.NonNeg) (hb : b.NonNeg) : (a + b).NonNeg := by
  change (F64.add a b).NonNeg
  rcases ha with rfl | rfl | ⟨u, hu, rfl⟩ <;> rcases hb with rfl | rfl | ⟨w, hw, rfl⟩
  · exact Or.inl rfl
  · exact Or.inl rfl
  · exact Or.inl rfl
  · exact Or.inl rfl
  · exact Or.inr (Or.inl rfl)
  · exact Or.inr (Or.inl rfl)
  · exact Or.inl rfl
  · exact Or.inr (Or.inl rfl)
  · simp only [F64.add]
    exact roundNE_nonneg _ (add_nonneg hu hw)

theorem F64.div_nonNeg (a b : F64) (ha : a.NonNeg) (hb : b.NonNeg) : (a / b).NonNeg := by
  change (F64.div a b).NonNeg
  rcases ha with rfl | rfl | ⟨u, hu, rfl⟩ <;> rcases hb with rfl | rfl | ⟨w, hw, rfl⟩
  · exact Or.inl (by simp [F64.div, F64.toRat?])
  · exact Or.inl (by simp [F64.div, F64.toRat?])
  · exact Or.inl (by simp [F64.div, F64.toRat?])
  · exact Or.inl (by simp [F64.div, F64.toRat?])
  · exact Or.inl (by simp [F64.div, F64.toRat?])
  · refine Or.inr (Or.inl ?_)
    simp [F64.div, F64.toRat?, F64.infS, F64.isNeg, not_lt.mpr hw]
  · exact Or.inl (by simp [F64.div, F64.toRat?])
  · refine Or.inr (Or.inr ⟨0, le_rfl, ?_⟩)
    simp [F64.div, F64.toRat?, F64.zeroS, F64.isNeg, not_lt.mpr hu]
  · by_cases hw0 : w = 0
    · by_cases hu0 : u = 0
      · exact Or.inl (by simp [F64.div, F64.toRat?, hw0, hu0])
      · refine Or.inr (Or.inl ?_)
        simp [F64.div, F64.toRat?, hw0, hu0, F64.infS, F64.isNeg, not_lt.mpr hu]
    · by_cases hu0 : u = 0
      · refine Or.inr (Or.inr ⟨0, le_rfl, ?_⟩)
        simp [F64.div, F64.toRat?, hw0, hu0, F64.zeroS, F64.isNeg, not_lt.mpr hw]
      · simp only [F64.div, F64.toRat?, hw0, hu0, if_false]
        exact roundNE_nonneg _ (div_nonneg hu hw)

theorem rmLoop_nonneg (S I M : F64) (L : List (F64 × F64)) (acc : F64 × F64)
    (h1 : acc.1.NonNeg) (h2 : acc.2.NonNeg) :
    (L.foldl (rmStep S I M) acc).1.NonNeg ∧ (L.foldl (rmStep S I M) acc).2.NonNeg := by
  induction L generalizing acc with
  | nil => exact ⟨h1, h2⟩
  | cons p t ih =>
    simp only [List.foldl_cons]
    exact ih _ (F64.add_nonNeg _ _ h1 (F64.sq_nonNeg _))
      (F64.add_nonNeg _ _ h2 (F64.sq_nonNeg _))

/-- One minus a float that is not negative is `NaN` or at most 1. -/
theorem one_sub_le_one (q : F64) (hq : q.NonNeg) :
    (ofRat 1 - q : F64) = nan ∨ F64.le (ofRat 1 - q : F64) (fin 1) = true := by
  change F64.add (roundNE 1) (F64.neg q) = nan ∨ F64.le (F64.add (roundNE 1) (F64.neg q)) (fin 1) = true
  rw [roundNE_one]
  rcases hq with rfl | rfl | ⟨v, hv, rfl⟩
  · exact Or.inl rfl
  · exact Or.inr rfl
  · right
    by_cases h0 : v = 0
    · simp [F64.neg, h0, F64.add, F64.le, F64.val]
    · simp only [F64.neg, h0, if_false, F64.add]
      apply roundNE_le_one
      have : 0 < v := lt_of_le_of_ne hv (Ne.symm h0)
      linarith

/-- Whatever the inputs, the `R²` of `regressionMetrics` is `NaN` or at most 1. -/
theorem r2_bound (x y : List F64) (s i r2 rse f : F64)
    (h : regressionMetrics x y s i = some (r2, rse, f)) :
    r2 = nan ∨ F64.le r2 (fin 1) = true := by
  unfold regressionMetrics at h
  split_ifs at h
  simp only [Option.some.injEq, Prod.mk.injEq] at h
  rw [← h.1]
  have hz : (ofRat 0 : F64).NonNeg := Or.inr (Or.inr ⟨0, le_rfl, roundNE_zero⟩)
  obtain ⟨g1, g2⟩ := rmLoop_nonneg s i (stats.Mean y) (List.zip x y) (ofRat 0, ofRat 0) hz hz
  exact one_sub_le_one _ (F64.div_nonNeg _ _ g1 g2)

end Robust

/-! ## The regression fitter -/

/-- C1, as stated, fails on `x = y = [1e8, 1e8+1, 1e8+2]`: the exact
denominator `n·Σx² − (Σx)²` is 6, the float64 one is 0, and the function
returns `(NaN, NaN)`. -/
theorem least_squares_as_stated_fails :
    linearRegression [fin 100000000, fin 100000001, fin 100000002]
        [fin 100000000, fin 100000001, fin 100000002] = Except.ok (nan, nan) ∧
    ¬ LeastSquaresAsStated [fin 100000000, fin 100000001, fin 100000002]
        [fin 100000000, fin 100000001, fin 100000002] := by
  have hrun : linearRegression [fin 100000000, fin 100000001, fin 100000002]
      [fin 100000000, fin 100000001, fin 100000002] = Except.ok (nan, nan) := by decide!
  refine ⟨hrun, ?_⟩
  intro h
  obtain ⟨s, i, hfit, hs, _⟩ := h rfl (by
    norm_num [slopeDen, sumSq, reals, F64.real, F64.val])
  rw [hrun] at hfit
  simp only [Except.ok.injEq, Prod.mk.injEq] at hfit
  rw [← hfit.1] at hs
  exact Bool.false_ne_true hs

/-- C1, amended: when no float64 operation of `linearRegression(x, y)` rounds,
the call returns a finite `(slope, intercept)` that is the least-squares fit:
for all `a` and `b` of the field (the reals among them), the residual sum of
squares of the returned line is at most that of the line `a·x + b`. -/
theorem least_squares_of_exact (K : Type) [LinearOrderedField K] (x y : List F64)
    (hexact : fitExact x y = true) :
    ∃ s i : F64, linearRegression x y = Except.ok (s, i) ∧
      s.isFinite = true ∧ i.isFinite = true ∧
      ∀ a b : K, rssOf (reals K x) (reals K y) (s.real K) (i.real K)
        ≤ rssOf (reals K x) (reals K y) a b := by
  obtain ⟨hlen, s, i, hfit, hs, hi, hden, hvs, hvi⟩ := fitExact_values K x y hexact
  refine ⟨s, i, hfit, hs, hi, ?_⟩
  intro a b
  rw [hvs, hvi]
  exact rssOf_ols_le _ _ (by simp [reals_length, hlen]) hden a b

theorem least_squares_of_exact_witness :
    ∃ s i : F64, linearRegression [fin 1, fin 2, fin 3] [fin 1, fin 3, fin 2]
        = Except.ok (s, i) ∧
      s.isFinite = true ∧ i.isFinite = true ∧
      ∀ a b : ℝ, rssOf (reals ℝ [fin 1, fin 2, fin 3]) (reals ℝ [fin 1, fin 3, fin 2])
          (s.real ℝ) (i.real ℝ)
        ≤ rssOf (reals ℝ [fin 1, fin 2, fin 3]) (reals ℝ [fin 1, fin 3, fin 2]) a b :=
  least_squares_of_exact ℝ [fin 1, fin 2, fin 3] [fin 1, fin 3, fin 2] (by decide!)

/-- C2, as stated, fails on `x = [4e7, 4e7+1, 4e7+2]`, `y = x + 1` (all exact
float64 values): the function returns `(0.75, 10000001.25)`, not `(1, 1)`. -/
theorem recovers_line_as_stated_fails :
    linearRegression [fin 40000000, fin 40000001, fin 40000002]
        [fin 40000001, fin 40000002, fin 40000003]
      = Except.ok (fin (3 / 4), fin (40000005 / 4)) ∧
    ¬ RecoversLineAsStated 1 1 [fin 40000000, fin 40000001, fin 40000002]
        [fin 40000001, fin 40000002, fin 40000003] := by
  have hrun : linearRegression [fin 40000000, fin 40000001, fin 40000002]
      [fin 40000001, fin 40000002, fin 40000003]
      = Except.ok (fin (3 / 4), fin (40000005 / 4)) := by decide!
  refine ⟨hrun, ?_⟩
  intro h
  obtain ⟨s, i, hfit, _, _, hs, _⟩ := h rfl
    ⟨(40000000 : ℝ), by simp [reals, F64.real, F64.val], (40000001 : ℝ),
      by simp [reals, F64.real, F64.val], by norm_num⟩
    (by
      intro p hp
      simp only [List.zip_cons_cons, List.zip_nil_right, List.mem_cons, List.mem_singleton,
        List.not_mem_nil, or_false] at hp
      rcases hp with rfl | rfl | rfl <;> norm_num [F64.real, F64.val])
  rw [hrun] at hfit
  simp only [Except.ok.injEq, Prod.mk.injEq] at hfit
  rw [← hfit.1] at hs
  norm_num [F64.real, F64.val] at hs

/-- C2, amended: for every `m`, `b` and samples with `y_i = m·x_i + b`, when no
float64 operation of `linearRegression(x, y)` rounds, the call returns no
error, slope `m` and intercept `b`. -/
theorem recovers_line_of_exact (K : Type) [LinearOrderedField K] (m b : K)
    (x y : List F64) (hy : OnLine K m b x y) (hexact : fitExact x y = true) :
    ∃ s i : F64, linearRegression x y = Except.ok (s, i) ∧
      s.isFinite = true ∧ i.isFinite = true ∧ s.real K = m ∧ i.real K = b := by
  obtain ⟨s, i, hfit, hs, hi, hsm, hib⟩ := fitExact_line K m b x y hy hexact
  exact ⟨s, i, hfit, hs, hi, hsm, hib⟩

theorem recovers_line_of_exact_witness :
    ∃ s i : F64, linearRegression [fin 1, fin 2, fin 3, fin 4, fin 5]
        [fin 2, fin 4, fin 6, fin 8, fin 10] = Except.ok (s, i) ∧
      s.isFinite = true ∧ i.isFinite = true ∧ s.real ℝ = 2 ∧ i.real ℝ = 0 :=
  recovers_line_of_exact ℝ 2 0 [fin 1, fin 2, fin 3, fin 4, fin 5]
    [fin 2, fin 4, fin 6, fin 8, fin 10]
    (by
      intro p hp
      simp only [List.zip_cons_cons, List.zip_nil_right, List.mem_cons, List.mem_singleton,
        List.not_mem_nil, or_false] at hp
      rcases hp with rfl | rfl | rfl | rfl | rfl <;> norm_num [F64.real, F64.val])
    (by decide!)

/-- C3: `linearRegression` returns an error exactly when the lengths differ,
and returns a result with a nil error exactly when they are equal. -/
theorem linearRegression_error_iff (x y : List F64) :
    ((∃ e, linearRegression x y = Except.error e) ↔ x.length ≠ y.length) ∧
    ((∃ r, linearRegression x y = Except.ok r) ↔ x.length = y.length) := by
  by_cases h : x.length = y.length
  · simp [linearRegression, h]
  · simp [linearRegression, h]

/-- C8: on each of the four datasets of `main`, `linearRegression` returns no
error and a slope and intercept that round to the five decimals documented in
the source; for Set I the slope is within `1e-3` of `0.5001` and the
intercept within `1e-3` of `3.0001`. -/
theorem anscombe_fits :
    (∃ s i : ℚ, linearRegression x1 y1 = Except.ok (fin s, fin i) ∧
      |s - 0.50009| < 0.000005 ∧ |i - 3.00009| < 0.000005 ∧
      |s - 0.5001| ≤ 0.001 ∧ |i - 3.0001| ≤ 0.001) ∧
    (∃ s i : ℚ, linearRegression x2 y2 = Except.ok (fin s, fin i) ∧
      |s - 0.50000| < 0.000005 ∧ |i - 3.00091| < 0.000005) ∧
    (∃ s i : ℚ, linearRegression x3 y3 = Except.ok (fin s, fin i) ∧
      |s - 0.49973| < 0.000005 ∧ |i - 3.00245| < 0.000005) ∧
    (∃ s i : ℚ, linearRegression x4 y4 = Except.ok (fin s, fin i) ∧
      |s - 0.49991| < 0.000005 ∧ |i - 3.00173| < 0.000005) := by
  refine ⟨⟨1126104615916593 / 2251799813685248, 3377802075064871 / 1125899906842624, ?_, ?_⟩,
    ⟨4503599627370489 / 9007199254740992, 3378723265897737 / 1125899906842624, ?_, ?_⟩,
    ⟨4501143118482813 / 9007199254740992, 845115823256629 / 281474976710656, ?_, ?_⟩,
    ⟨9005561582149253 / 18014398509481984, 3379644456730581 / 1125899906842624, ?_, ?_⟩⟩
  · decide!
  · norm_num [abs_lt, abs_le]
  · decide!
  · norm_num [abs_lt, abs_le]
  · decide!
  · norm_num [abs_lt, abs_le]
  · decide!
  · norm_num [abs_lt, abs_le]

/-! ## The metrics calculator -/

/-- C6, as stated, fails on `x = [0, 1, 2]`, `y = [0, 1, 2 + 2⁻³⁰]`, slope 1
and intercept 0: the function returns `R² = 1` although the last residual is
`2⁻³⁰`. -/
theorem r2_as_stated_fails :
    regressionMetrics [fin 0, fin 1, fin 2] [fin 0, fin 1, fin (2 + 1 / 1073741824)]
        (fin 1) (fin 0)
      = some (fin 1, fin (1 / 1073741824), fin 2305843011361177600) ∧
    ¬ R2AsStated [fin 0, fin 1, fin 2] [fin 0, fin 1, fin (2 + 1 / 1073741824)]
        (fin 1) (fin 0) := by
  have hrun : regressionMetrics [fin 0, fin 1, fin 2]
      [fin 0, fin 1, fin (2 + 1 / 1073741824)] (fin 1) (fin 0)
      = some (fin 1, fin (1 / 1073741824), fin 2305843011361177600) := by decide!
  refine ⟨hrun, ?_⟩
  intro h
  obtain ⟨r2, rse, f, hm, _, himp⟩ := h rfl
    ⟨(0 : ℝ), by simp [reals, F64.real, F64.val], (1 : ℝ),
      by simp [reals, F64.real, F64.val], by norm_num⟩
  rw [hrun] at hm
  simp only [Option.some.injEq, Prod.mk.injEq] at hm
  have h3 := himp hm.1.symm (fin 2, fin (2 + 1 / 1073741824)) (by simp)
  norm_num [F64.real, F64.val] at h3

/-- C6, amended: for equal-length samples and every slope and intercept,
`regressionMetrics` returns an `R²` that is `NaN` or at most 1; and when no
float64 operation behind `R²` rounds, the `R²` is a finite value at most 1, and
it is 1 exactly when every residual `y_i − (slope·x_i + intercept)` is zero. -/
theorem r2_le_one (K : Type) [LinearOrderedField K] (x y : List F64) (s i : F64)
    (hlen : x.length = y.length) :
    ∃ r2 rse f : F64, regressionMetrics x y s i = some (r2, rse, f) ∧
      (r2 = nan ∨ F64.le r2 (fin 1) = true) ∧
      (r2Exact x y s i = true →
        r2.isFinite = true ∧ r2.real K ≤ 1 ∧
        (r2.real K = 1 ↔
          ∀ p ∈ List.zip x y, p.2.real K - (s.real K * p.1.real K + i.real K) = 0)) := by
  refine ⟨_, _, _, regressionMetrics_plain x y s i hlen,
    r2_bound x y s i _ _ _ (regressionMetrics_plain x y s i hlen), ?_⟩
  intro hexact
  rw [r2Exact_eq x y s i hlen] at hexact
  obtain ⟨grss, gtss, htne, gr2, hv⟩ := raw_r2 K _ _ hexact
  obtain ⟨hv1, hv2, _, _⟩ := sums_values K x y s i hlen grss gtss
  rw [hv1, hv2] at hv
  rw [hv2] at htne
  have htss : 0 < tssOf (reals K y) := lt_of_le_of_ne (tssOf_nonneg _) (Ne.symm htne)
  have hrss := rssOf_nonneg (reals K x) (reals K y) (s.real K) (i.real K)
  refine ⟨gr2.2, ?_, ?_⟩
  · change (r2T x y s i).f.real K ≤ 1
    rw [r2T, hv]
    have := div_nonneg hrss htss.le
    linarith
  · change (r2T x y s i).f.real K = 1 ↔ _
    rw [r2T, hv, ← zip_reals_forall K x y (fun a b => b - (s.real K * a + i.real K) = 0),
      ← rssOf_eq_zero_iff]
    constructor
    · intro h
      have h2 : rssOf (reals K x) (reals K y) (s.real K) (i.real K) / tssOf (reals K y) = 0 := by
        linarith
      rcases div_eq_zero_iff.mp h2 with h3 | h3
      · exact h3
      · exact absurd h3 htne
    · intro h
      rw [h]
      simp

theorem r2_le_one_witness :
    r2Exact [fin 0, fin 1, fin 2, fin 3] [fin 0, fin 1, fin 0, fin 1] (fin 0) (fin 0) = true ∧
    ∃ r2 rse f : F64, regressionMetrics [fin 0, fin 1, fin 2, fin 3]
        [fin 0, fin 1, fin 0, fin 1] (fin 0) (fin 0) = some (r2, rse, f) ∧
      (r2 = nan ∨ F64.le r2 (fin 1) = true) ∧
      (r2Exact [fin 0, fin 1, fin 2, fin 3] [fin 0, fin 1, fin 0, fin 1] (fin 0) (fin 0) = true →
        r2.isFinite = true ∧ r2.real ℝ ≤ 1 ∧
        (r2.real ℝ = 1 ↔
          ∀ p ∈ List.zip [fin 0, fin 1, fin 2, fin 3] [fin 0, fin 1, fin 0, fin 1],
            p.2.real ℝ - ((fin 0).real ℝ * p.1.real ℝ + (fin 0).real ℝ) = 0)) :=
  ⟨by decide!, r2_le_one ℝ [fin 0, fin 1, fin 2, fin 3] [fin 0, fin 1, fin 0, fin 1]
    (fin 0) (fin 0) rfl⟩

/-- C4, as stated, fails on `x = [4e7, 4e7+1, 4e7+2]`, `y = x + 1`: the fit is
`(0.75, 10000001.25)` and the function returns `R² = 0.9375` and
`RSE ≈ 0.3536` for it. -/
theorem perfect_fit_as_stated_fails :
    regressionMetrics [fin 40000000, fin 40000001, fin 40000002]
        [fin 40000001, fin 40000002, fin 40000003] (fin (3 / 4)) (fin (40000005 / 4))
      = some (fin (15 / 16), fin (6369051672525773 / 18014398509481984), fin 15) ∧
    ¬ PerfectFitAsStated 1 1 [fin 40000000, fin 40000001, fin 40000002]
        [fin 40000001, fin 40000002, fin 40000003] := by
  have hfit : linearRegression [fin 40000000, fin 40000001, fin 40000002]
      [fin 40000001, fin 40000002, fin 40000003]
      = Except.ok (fin (3 / 4), fin (40000005 / 4)) := by decide!
  have hrun : regressionMetrics [fin 40000000, fin 40000001, fin 40000002]
      [fin 40000001, fin 40000002, fin 40000003] (fin (3 / 4)) (fin (40000005 / 4))
      = some (fin (15 / 16), fin (6369051672525773 / 18014398509481984), fin 15) := by
    decide!
  refine ⟨hrun, ?_⟩
  intro h
  obtain ⟨r2, rse, f, hm, hr2, _⟩ := h rfl (by decide) one_ne_zero
    ⟨(40000000 : ℝ), by simp [reals, F64.real, F64.val], (40000001 : ℝ),
      by simp [reals, F64.real, F64.val], by norm_num⟩
    (by
      intro p hp
      simp only [List.zip_cons_cons, List.zip_nil_right, List.mem_cons, List.mem_singleton,
        List.not_mem_nil, or_false] at hp
      rcases hp with rfl | rfl | rfl <;> norm_num [F64.real, F64.val])
    _ _ hfit
  rw [hrun] at hm
  simp only [Option.some.injEq, Prod.mk.injEq] at hm
  rw [← hm.1] at hr2
  revert hr2
  decide!

/-- C4, amended: on samples with `y_i = m·x_i + b` and more than two samples,
when no float64 operation of `linearRegression(x, y)` rounds, nor any behind
the `R²` and the `RSE` of `regressionMetrics` called with the returned slope
and intercept, that call returns `R² = 1` and `RSE = 0`. -/
theorem perfect_fit_of_exact (K : Type) [LinearOrderedField K] (m b : K)
    (x y : List F64) (s i : F64) (hn : 2 < x.length) (hy : OnLine K m b x y)
    (hfit : linearRegression x y = Except.ok (s, i)) (hexact : fitExact x y = true)
    (hr2 : r2Exact x y s i = true) (hrse : rseExact x y s i = true) :
    ∃ f : F64, regressionMetrics x y s i = some (fin 1, fin 0, f) := by
  have hlen := (fitExact_values K x y hexact).1
  obtain ⟨s0, i0, hfit0, _, _, hs, hi⟩ := fitExact_line K m b x y hy hexact
  rw [hfit] at hfit0
  simp only [Except.ok.injEq, Prod.mk.injEq] at hfit0
  obtain ⟨rfl, rfl⟩ := hfit0
  have hrss : rssOf (reals K x) (reals K y) (s.real K) (i.real K) = 0 := by
    rw [hs, hi, onLine_reals K m b x y hlen hy]
    exact rssOf_line m b _
  rw [r2Exact_eq x y s i hlen] at hr2
  rw [rseExact_eq x y s i hlen] at hrse
  obtain ⟨grss, gtss, htne, gr2, hv⟩ := raw_r2 K _ _ hr2
  obtain ⟨hv1, hv2, _, _⟩ := sums_values K x y s i hlen grss gtss
  obtain ⟨gq, _, _⟩ := Tracked.sqrt_ok K _ hrse
  have hq0 := quotT_zero K x y s i hlen hn gq gtss hrss
  have hr2v : (r2T x y s i).f.val = 1 := by
    have h1 : (r2T x y s i).f.real K = ((1 : ℚ) : K) := by
      rw [r2T, hv, hv1, hrss]
      simp
    unfold F64.real at h1
    exact_mod_cast h1
  have gr2' : Good (r2T x y s i) := gr2
  have hr2f : (r2T x y s i).f = fin 1 := by
    have h2 := eq_fin_of_val_ne_zero (r2T x y s i).f gr2'.2 (by rw [hr2v]; exact one_ne_zero)
    rw [hr2v] at h2
    exact h2
  have hrsef : (rseT x y s i).f = fin 0 := by
    change F64.Sqrt (quotT x y s i).f = fin 0
    rw [hq0]
    simp [F64.Sqrt]
  refine ⟨(fT x y s i).f, ?_⟩
  rw [regressionMetrics_plain x y s i hlen, hr2f, hrsef]

theorem perfect_fit_of_exact_witness :
    ∃ f : F64, regressionMetrics [fin 1, fin 2, fin 3, fin 4, fin 5]
        [fin 2, fin 4, fin 6, fin 8, fin 10] (fin 2) (fin 0) = some (fin 1, fin 0, f) :=
  perfect_fit_of_exact ℝ 2 0 [fin 1, fin 2, fin 3, fin 4, fin 5]
    [fin 2, fin 4, fin 6, fin 8, fin 10] (fin 2) (fin 0) (by decide)
    (by
      intro p hp
      simp only [List.zip_cons_cons, List.zip_nil_right, List.mem_cons, List.mem_singleton,
        List.not_mem_nil, or_false] at hp
      rcases hp with rfl | rfl | rfl | rfl | rfl <;> norm_num [F64.real, F64.val])
    (by decide!) (by decide!) (by decide!) (by decide!)

/-- C5, as stated, fails on `x = [4e7, 4e7+1, 4e7+2]`, `y = x + 1`: the fit is
`(0.75, 10000001.25)` and the function returns `F = 15` for it. -/
theorem large_f_as_stated_fails :
    linearRegression [fin 40000000, fin 40000001, fin 40000002]
        [fin 40000001, fin 40000002, fin 40000003]
      = Except.ok (fin (3 / 4), fin (40000005 / 4)) ∧
    ¬ LargeFAsStated 1 1 [fin 40000000, fin 40000001, fin 40000002]
        [fin 40000001, fin 40000002, fin 40000003] := by
  have hfit : linearRegression [fin 40000000, fin 40000001, fin 40000002]
      [fin 40000001, fin 40000002, fin 40000003]
      = Except.ok (fin (3 / 4), fin (40000005 / 4)) := by decide!
  have hrun : regressionMetrics [fin 40000000, fin 40000001, fin 40000002]
      [fin 40000001, fin 40000002, fin 40000003] (fin (3 / 4)) (fin (40000005 / 4))
      = some (fin (15 / 16), fin (6369051672525773 / 18014398509481984), fin 15) := by
    decide!
  refine ⟨hfit, ?_⟩
  intro h
  obtain ⟨r2, rse, f, hm, hf⟩ := h rfl (by decide) one_ne_zero
    ⟨(40000000 : ℝ), by simp [reals, F64.real, F64.val], (40000001 : ℝ),
      by simp [reals, F64.real, F64.val], by norm_num⟩
    (by
      intro p hp
      simp only [List.zip_cons_cons, List.zip_nil_right, List.mem_cons, List.mem_singleton,
        List.not_mem_nil, or_false] at hp
      rcases hp with rfl | rfl | rfl <;> norm_num [F64.real, F64.val])
    _ _ hfit
  rw [hrun] at hm
  simp only [Option.some.injEq, Prod.mk.injEq] at hm
  rw [← hm.2.2] at hf
  revert hf
  decide!

/-- C5, amended: on samples with `y_i = m·x_i + b` and more than two samples,
when no float64 operation of `linearRegression(x, y)` rounds, nor any behind
the `F` of `regressionMetrics` called with the returned slope and intercept,
that `F` is `+Inf`, which is at least 1000. -/
theorem large_f_of_exact (K : Type) [LinearOrderedField K] (m b : K)
    (x y : List F64) (s i : F64) (hn : 2 < x.length) (hy : OnLine K m b x y)
    (hfit : linearRegression x y = Except.ok (s, i)) (hexact : fitExact x y = true)
    (hf : fExact x y s i = true) :
    ∃ r2 rse f : F64, regressionMetrics x y s i = some (r2, rse, f) ∧
      f = pinf ∧ F64.le (fin 1000) f = true := by
  have hlen := (fitExact_values K x y hexact).1
  obtain ⟨s0, i0, hfit0, _, _, hs, hi⟩ := fitExact_line K m b x y hy hexact
  rw [hfit] at hfit0
  simp only [Except.ok.injEq, Prod.mk.injEq] at hfit0
  obtain ⟨rfl, rfl⟩ := hfit0
  have hrss : rssOf (reals K x) (reals K y) (s.real K) (i.real K) = 0 := by
    rw [hs, hi, onLine_reals K m b x y hlen hy]
    exact rssOf_line m b _
  rw [fExact_eq x y s i hlen] at hf
  obtain ⟨gnum0, gq, grss, gtss, hnum0, hcase⟩ := raw_f K _ _ _ hf
  have gnum : Good (numT x y s i) := gnum0
  have hnum : (numT x y s i).f.real K
      = (tssT x y s i).f.real K - (rssT x y s i).f.real K := hnum0
  obtain ⟨hv1, hv2, _, _⟩ := sums_values K x y s i hlen grss gtss
  have hq0 : (quotT x y s i).f = fin 0 := quotT_zero K x y s i hlen hn gq gtss hrss
  have hnz : (numT x y s i).f.val ≠ 0 := by
    rcases hcase with ⟨hz, _⟩ | ⟨_, hnz⟩
    · exfalso
      apply hz
      change (quotT x y s i).f.val = 0
      rw [hq0]
      rfl
    · exact hnz
  have hpos : 0 < (numT x y s i).f.val := by
    have h0 : (0 : K) ≤ (((numT x y s i).f.val : ℚ) : K) := by
      change 0 ≤ (numT x y s i).f.real K
      rw [hnum, hv1, hv2, hrss, sub_zero]
      exact tssOf_nonneg _
    have h1 : 0 ≤ (numT x y s i).f.val := by exact_mod_cast h0
    exact lt_of_le_of_ne h1 (Ne.symm hnz)
  have hff : (fT x y s i).f = pinf := by
    change (numT x y s i).f / (quotT x y s i).f = pinf
    rw [hq0, eq_fin_of_val_ne_zero (numT x y s i).f gnum.2 hnz]
    exact F64.div_pos_zero _ hpos
  refine ⟨_, _, _, regressionMetrics_plain x y s i hlen, hff, ?_⟩
  rw [hff]
  rfl

theorem large_f_of_exact_witness :
    ∃ r2 rse f : F64, regressionMetrics [fin 1, fin 2, fin 3, fin 4, fin 5]
        [fin 2, fin 4, fin 6, fin 8, fin 10] (fin 2) (fin 0) = some (r2, rse, f) ∧
      f = pinf ∧ F64.le (fin 1000) f = true :=
  large_f_of_exact ℝ 2 0 [fin 1, fin 2, fin 3, fin 4, fin 5]
    [fin 2, fin 4, fin 6, fin 8, fin 10] (fin 2) (fin 0) (by decide)
    (by
      intro p hp
      simp only [List.zip_cons_cons, List.zip_nil_right, List.mem_cons, List.mem_singleton,
        List.not_mem_nil, or_false] at hp
      rcases hp with rfl | rfl | rfl | rfl | rfl <;> norm_num [F64.real, F64.val])
    (by decide!) (by decide!) (by decide!)

/-- C9, as stated, fails on `x = [0,1,2,3]`, `y = [0,1,0,1]`, slope 0 and
intercept 0, where no operation rounds: `RSS = 2`, `TSS = 1`, `RSE = 1`, the
function returns `F = −1` and the stated formula gives `−1/2`. -/
theorem fstat_as_stated_fails :
    regressionMetrics [fin 0, fin 1, fin 2, fin 3] [fin 0, fin 1, fin 0, fin 1]
        (fin 0) (fin 0) = some (fin (-1), fin 1, fin (-1)) ∧
    ¬ FStatAsStated [fin 0, fin 1, fin 2, fin 3] [fin 0, fin 1, fin 0, fin 1]
        (fin 0) (fin 0) := by
  have hrun : regressionMetrics [fin 0, fin 1, fin 2, fin 3] [fin 0, fin 1, fin 0, fin 1]
      (fin 0) (fin 0) = some (fin (-1), fin 1, fin (-1)) := by decide!
  refine ⟨hrun, ?_⟩
  intro h
  obtain ⟨r2, rse, f, hm, hF⟩ := h rfl (by decide)
  rw [hrun] at hm
  simp only [Option.some.injEq, Prod.mk.injEq] at hm
  obtain ⟨_, rfl, rfl⟩ := hm
  norm_num [F64.real, F64.val, tssOf, rssOf, meanOf, reals] at hF

/-- C9, amended: for equal-length samples and a slope and intercept for which
no float64 operation behind `RSE` and `F` rounds (the square root included)
and `F` is finite, the F-statistic of `regressionMetrics` is
`(TSS − RSS) / RSE²`, that is `(TSS − RSS) / (RSS / (n − 2))`, where `RSE` is
the residual standard error of the same call, with `RSE² = RSS / (n − 2)`. -/
theorem fstat_of_exact (K : Type) [LinearOrderedField K] (x y : List F64) (s i : F64)
    (hlen : x.length = y.length) (hf : fExactFinite x y s i = true)
    (hrse : rseExact x y s i = true) :
    ∃ r2 rse f : F64, regressionMetrics x y s i = some (r2, rse, f) ∧
      rse.isFinite = true ∧ f.isFinite = true ∧
      rse.real K * rse.real K
        = rssOf (reals K x) (reals K y) (s.real K) (i.real K) / ((x.length : K) - 2) ∧
      f.real K
        = (tssOf (reals K y) - rssOf (reals K x) (reals K y) (s.real K) (i.real K))
          / (rse.real K * rse.real K) ∧
      f.real K
        = (tssOf (reals K y) - rssOf (reals K x) (reals K y) (s.real K) (i.real K))
          / (rssOf (reals K x) (reals K y) (s.real K) (i.real K) / ((x.length : K) - 2)) := by
  rw [fExactFinite_eq x y s i hlen, Bool.and_eq_true] at hf
  rw [rseExact_eq x y s i hlen] at hrse
  obtain ⟨_, gq, grss, gtss, hnum0, _⟩ := raw_f K _ _ _ hf.1
  have hnum : (numT x y s i).f.real K
      = (tssT x y s i).f.real K - (rssT x y s i).f.real K := hnum0
  obtain ⟨_, _, _, hfv⟩ := Tracked.div_good K (numT x y s i) (quotT x y s i) ⟨hf.1, hf.2⟩
  obtain ⟨_, gn, _, _, _, hq0⟩ := raw_quot K _ _ gq
  have hq : (quotT x y s i).f.real K
      = (rssT x y s i).f.real K / ((nT x).f.real K - 2) := hq0
  obtain ⟨_, grse, hrv0⟩ := raw_rse K _ _ hrse
  have hrv : (rseT x y s i).f.real K * (rseT x y s i).f.real K
      = (rssT x y s i).f.real K / ((nT x).f.real K - 2) := hrv0
  obtain ⟨hv1, hv2, _, _⟩ := sums_values K x y s i hlen grss gtss
  have hn : (nT x).f.real K = (x.length : K) := natCast_real K x.length gn.1
  rw [hv1, hn] at hq hrv
  have hfv2 : (fT x y s i).f.real K
      = (numT x y s i).f.real K / (quotT x y s i).f.real K := hfv
  rw [hnum, hv1, hv2, hq] at hfv2
  refine ⟨_, _, _, regressionMetrics_plain x y s i hlen, grse.2, hf.2, hrv, ?_, hfv2⟩
  rw [hrv]
  exact hfv2

theorem fstat_of_exact_witness :
    ∃ r2 rse f : F64, regressionMetrics [fin 0, fin 1, fin 2, fin 3]
        [fin 0, fin 1, fin 0, fin 1] (fin 0) (fin 0) = some (r2, rse, f) ∧
      rse.isFinite = true ∧ f.isFinite = true ∧
      rse.real ℝ * rse.real ℝ
        = rssOf (reals ℝ [fin 0, fin 1, fin 2, fin 3]) (reals ℝ [fin 0, fin 1, fin 0, fin 1])
            ((fin 0).real ℝ) ((fin 0).real ℝ)
          / ((([fin 0, fin 1, fin 2, fin 3] : List F64).length : ℝ) - 2) ∧
      f.real ℝ
        = (tssOf (reals ℝ [fin 0, fin 1, fin 0, fin 1])
            - rssOf (reals ℝ [fin 0, fin 1, fin 2, fin 3])
                (reals ℝ [fin 0, fin 1, fin 0, fin 1]) ((fin 0).real ℝ) ((fin 0).real ℝ))
          / (rse.real ℝ * rse.real ℝ) ∧
      f.real ℝ
        = (tssOf (reals ℝ [fin 0, fin 1, fin 0, fin 1])
            - rssOf (reals ℝ [fin 0, fin 1, fin 2, fin 3])
                (reals ℝ [fin 0, fin 1, fin 0, fin 1]) ((fin 0).real ℝ) ((fin 0).real ℝ))
          / (rssOf (reals ℝ [fin 0, fin 1, fin 2, fin 3])
                (reals ℝ [fin 0, fin 1, fin 0, fin 1]) ((fin 0).real ℝ) ((fin 0).real ℝ)
              / ((([fin 0, fin 1, fin 2, fin 3] : List F64).length : ℝ) - 2)) :=
  fstat_of_exact ℝ [fin 0, fin 1, fin 2, fin 3] [fin 0, fin 1, fin 0, fin 1] (fin 0) (fin 0)
    rfl (by decide!) (by decide!)

/-! ## Shifting every `y` by a constant -/

/-- C7, as stated, fails on `x = [1, 2, 3]`, `y = [2, 6, 4]`, `c = 2⁵³` (the
shifted samples are exact float64 values): the slope goes from 1 to about
5.33 and the intercept is not `2 + 2⁵³`. -/
theorem shift_as_stated_fails :
    linearRegression [fin 1, fin 2, fin 3] [fin 2, fin 6, fin 4]
      = Except.ok (fin 1, fin 2) ∧
    linearRegression [fin 1, fin 2, fin 3]
        [fin 9007199254740994, fin 9007199254740998, fin 9007199254740996]
      = Except.ok (fin (6004799503160661 / 1125899906842624), fin 9007199254740985) ∧
    ¬ ShiftAsStated 9007199254740992 [fin 1, fin 2, fin 3] [fin 2, fin 6, fin 4]
        [fin 9007199254740994, fin 9007199254740998, fin 9007199254740996] := by
  have hfit : linearRegression [fin 1, fin 2, fin 3] [fin 2, fin 6, fin 4]
      = Except.ok (fin 1, fin 2) := by decide!
  have hfit2 : linearRegression [fin 1, fin 2, fin 3]
      [fin 9007199254740994, fin 9007199254740998, fin 9007199254740996]
      = Except.ok (fin (6004799503160661 / 1125899906842624), fin 9007199254740985) := by
    decide!
  refine ⟨hfit, hfit2, ?_⟩
  intro h
  obtain ⟨s', i', hf', hs, _⟩ := h (by simp) rfl
    ⟨rfl, by
      intro p hp
      simp only [List.zip_cons_cons, List.zip_nil_right, List.mem_cons, List.mem_singleton,
        List.not_mem_nil, or_false] at hp
      rcases hp with rfl | rfl | rfl <;> norm_num [F64.real, F64.val]⟩
    _ _ hfit
  rw [hfit2] at hf'
  simp only [Except.ok.injEq, Prod.mk.injEq] at hf'
  rw [← hf'.1] at hs
  norm_num [F64.real, F64.val] at hs

/-- C7, amended: for samples `y'` that are the samples `y` shifted by `c`,
when no float64 operation of the two calls of `linearRegression` rounds, nor
any behind the `R²` of the two calls of `regressionMetrics` with the returned
slopes and intercepts, the slope is unchanged, the intercept is shifted by
`c`, and `regressionMetrics` returns the same `R²`, `RSE` (and `F`). -/
theorem shift_of_exact (K : Type) [LinearOrderedField K] (c : K) (x y y' : List F64)
    (s i s' i' : F64) (hshift : Shifted K c y y')
    (hfit : linearRegression x y = Except.ok (s, i))
    (hfit' : linearRegression x y' = Except.ok (s', i'))
    (hexact : fitExact x y = true) (hexact' : fitExact x y' = true)
    (hr2 : r2Exact x y s i = true) (hr2' : r2Exact x y' s' i' = true) :
    s'.real K = s.real K ∧ i'.real K = i.real K + c ∧
    ∃ r2 rse f : F64, regressionMetrics x y s i = some (r2, rse, f) ∧
      regressionMetrics x y' s' i' = some (r2, rse, f) := by
  obtain ⟨hlen, s0, i0, hfit0, _, _, hden, hvs, hvi⟩ := fitExact_values K x y hexact
  rw [hfit] at hfit0
  simp only [Except.ok.injEq, Prod.mk.injEq] at hfit0
  obtain ⟨rfl, rfl⟩ := hfit0
  obtain ⟨hlen', s1, i1, hfit1, _, _, _, hvs', hvi'⟩ := fitExact_values K x y' hexact'
  rw [hfit'] at hfit1
  simp only [Except.ok.injEq, Prod.mk.injEq] at hfit1
  obtain ⟨rfl, rfl⟩ := hfit1
  have hlenR : (reals K x).length = (reals K y).length := by simp [reals_length, hlen]
  have hxne := nonempty_of_slopeDen K hden
  have hyne : reals K y ≠ [] := by
    intro h
    rw [h] at hlenR
    exact hxne (List.length_eq_zero.mp hlenR)
  have e : reals K y' = (reals K y).map (fun v => v + c) :=
    eq_map_shift c _ _ (by simp [reals_length, hshift.1])
      ((zip_reals_forall K y y' (fun a b => b = a + c)).mpr hshift.2)
  have hs : s'.real K = s.real K := by
    rw [hvs', hvs, e, olsSlope, olsSlope, slopeNum_shift _ _ hlenR]
  have hi : i'.real K = i.real K + c := by
    rw [hvi', hvi, olsIntercept, olsIntercept, ← hvs', ← hvs, hs, e, meanOf_shift _ hyne]
    ring
  rw [r2Exact_eq x y s i hlen] at hr2
  rw [r2Exact_eq x y' s' i' hlen'] at hr2'
  obtain ⟨grss, gtss, _, _, _⟩ := raw_r2 K _ _ hr2
  obtain ⟨grss', gtss', _, _, _⟩ := raw_r2 K _ _ hr2'
  obtain ⟨hv1, hv2, hf1, hf2⟩ := sums_values K x y s i hlen grss gtss
  obtain ⟨hv1', hv2', hf1', hf2'⟩ := sums_values K x y' s' i' hlen' grss' gtss'
  have er : (rssT x y' s' i').f = (rssT x y s i).f := by
    rw [hf1', hf1]
    congr 1
    apply val_eq_of_real_eq K
    rw [hv1', hv1, hs, hi, e, rssOf_shift]
  have et : (tssT x y' s' i').f = (tssT x y s i).f := by
    rw [hf2', hf2]
    congr 1
    apply val_eq_of_real_eq K
    rw [hv2', hv2, e, tssOf_shift]
  have esums : rmSums x y' s' i' = rmSums x y s i := by
    rw [rmSums_plain, rmSums_plain, er, et]
  refine ⟨hs, hi, _, _, _, regressionMetrics_eq x y s i hlen, ?_⟩
  rw [regressionMetrics_eq x y' s' i' hlen', esums]

theorem shift_of_exact_witness :
    (fin (1 / 2)).real ℝ = (fin (1 / 2)).real ℝ ∧ (fin 6).real ℝ = (fin 1).real ℝ + 5 ∧
    ∃ r2 rse f : F64, regressionMetrics [fin 1, fin 2, fin 3] [fin 1, fin 3, fin 2]
        (fin (1 / 2)) (fin 1) = some (r2, rse, f) ∧
      regressionMetrics [fin 1, fin 2, fin 3] [fin 6, fin 8, fin 7] (fin (1 / 2)) (fin 6)
        = some (r2, rse, f) :=
  shift_of_exact ℝ 5 [fin 1, fin 2, fin 3] [fin 1, fin 3, fin 2] [fin 6, fin 8, fin 7]
    (fin (1 / 2)) (fin 1) (fin (1 / 2)) (fin 6)
    ⟨rfl, by
      intro p hp
      simp only [List.zip_cons_cons, List.zip_nil_right, List.mem_cons, List.mem_singleton,
        List.not_mem_nil, or_false] at hp
      rcases hp with rfl | rfl | rfl <;> norm_num [F64.real, F64.val]⟩
    (by decide!) (by decide!) (by decide!) (by decide!) (by decide!) (by decide!)

end Anscombe
